import Mathlib

/-!
Verification of core leveldb components against their specification:
byte-string comparison, comparator helpers, log record framing, block
building, table building, the write batch, the memtable and the LRU cache.
Byte strings are modelled as lists of naturals (each byte `< 256` where it
matters), machine integers as naturals with explicit truncation where the
code can overflow.
-/

namespace LevelDB

/-- A byte string, as carried by `Slice`. -/
abbrev Bytes := List Nat

/-- `Slice::compare`: memcmp-style lexicographic comparison; when one
string is a prefix of the other, the shorter compares smaller. -/
def sliceCompare : Bytes → Bytes → Ordering
  | [], [] => .eq
  | [], _ :: _ => .lt
  | _ :: _, [] => .gt
  | a :: as, b :: bs =>
      if a < b then .lt else if b < a then .gt else sliceCompare as bs

/-- `a` is strictly below `b` under the bytewise comparator. -/
def sliceLt (a b : Bytes) : Prop := sliceCompare a b = .lt

/-- `a` is at or below `b` under the bytewise comparator. -/
def sliceLe (a b : Bytes) : Prop := sliceCompare a b ≠ .gt

instance (a b : Bytes) : Decidable (sliceLt a b) := by unfold sliceLt; infer_instance

instance (a b : Bytes) : Decidable (sliceLe a b) := by unfold sliceLe; infer_instance

theorem sliceCompare_self (a : Bytes) : sliceCompare a a = .eq := by
  induction a with
  | nil => rfl
  | cons x xs ih => simp [sliceCompare, ih]

theorem sliceLe_refl (a : Bytes) : sliceLe a a := by
  simp [sliceLe, sliceCompare_self]

/-- Index of the first differing byte of two byte strings (`diff_index` in
`BytewiseComparatorImpl::FindShortestSeparator`); when one is a prefix of
the other this is the length of the shorter. -/
def diffIndex : Bytes → Bytes → Nat
  | a :: as, b :: bs => if a = b then diffIndex as bs + 1 else 0
  | _, _ => 0

/-- `BytewiseComparatorImpl::FindShortestSeparator`: walk the common
prefix; at the first differing byte, if that byte of `start` can be
incremented and stay strictly below the corresponding byte of `limit`,
increment it and truncate; otherwise (or when one string is a prefix of
the other) leave `start` unchanged. -/
def findShortestSeparator : Bytes → Bytes → Bytes
  | [], _ => []
  | s :: ss, [] => s :: ss
  | s :: ss, l :: ls =>
      if s = l then s :: findShortestSeparator ss ls
      else if s < 255 ∧ s + 1 < l then [s + 1]
      else s :: ss

/-- Claim C6: for byte strings `start < limit` under the default bytewise
comparator, `FindShortestSeparator` either replaces the first differing
byte `start[i]` by `start[i]+1` and truncates to length `i+1` (and it does
so only when the incremented byte stays below `limit[i]`), or leaves
`start` unchanged; in both cases `old_start ≤ new_start < limit`. -/
theorem findShortestSeparator_spec (start limit : Bytes)
    (h : sliceLt start limit) :
    (findShortestSeparator start limit = start ∨
      (diffIndex start limit < min start.length limit.length ∧
       start.getD (diffIndex start limit) 0 < 255 ∧
       start.getD (diffIndex start limit) 0 + 1 <
         limit.getD (diffIndex start limit) 0 ∧
       findShortestSeparator start limit =
         start.take (diffIndex start limit) ++
           [start.getD (diffIndex start limit) 0 + 1])) ∧
    sliceLe start (findShortestSeparator start limit) ∧
    sliceLt (findShortestSeparator start limit) limit := by
  induction start generalizing limit with
  | nil =>
    refine ⟨Or.inl rfl, sliceLe_refl [], ?_⟩
    simpa [findShortestSeparator] using h
  | cons s ss ih =>
    cases limit with
    | nil => simp [sliceLt, sliceCompare] at h
    | cons l ls =>
      by_cases hsl : s = l
      · subst hsl
        have h' : sliceLt ss ls := by
          simpa [sliceLt, sliceCompare] using h
        obtain ⟨hshape, hle, hlt⟩ := ih ls h'
        refine ⟨?_, ?_, ?_⟩
        · rcases hshape with h1 | ⟨h2a, h2b, h2c, h2d⟩
          · left; simp [findShortestSeparator, h1]
          · right
            refine ⟨?_, ?_, ?_, ?_⟩
            · simpa [diffIndex, Nat.succ_min_succ] using h2a
            · simpa [diffIndex] using h2b
            · simpa [diffIndex] using h2c
            · simp [findShortestSeparator, diffIndex, h2d]
        · simpa [findShortestSeparator, sliceLe, sliceCompare] using hle
        · simpa [findShortestSeparator, sliceLt, sliceCompare] using hlt
      · by_cases hc : s < 255 ∧ s + 1 < l
        · refine ⟨Or.inr ⟨?_, ?_, ?_, ?_⟩, ?_, ?_⟩
          · simp [diffIndex, hsl]
          · simpa [diffIndex, hsl] using hc.1
          · simpa [diffIndex, hsl] using hc.2
          · simp [findShortestSeparator, hsl, hc, diffIndex]
          · simp [findShortestSeparator, hsl, hc, sliceLe, sliceCompare,
              Nat.lt_irrefl]
          · simp [findShortestSeparator, hsl, hc, sliceLt, sliceCompare, hc.2]
        · refine ⟨Or.inl ?_, ?_, ?_⟩
          · simp [findShortestSeparator, hsl, hc]
          · simp only [findShortestSeparator, if_neg hsl, if_neg hc]
            exact sliceLe_refl _
          · simpa only [findShortestSeparator, if_neg hsl, if_neg hc] using h

/-- Witness for C6 at the source-comment example `start = "abcdef"`,
`limit = "abf"`. -/
theorem findShortestSeparator_spec_witness :
    sliceLt [97, 98, 99, 100, 101, 102] [97, 98, 102] ∧
    (sliceLe [97, 98, 99, 100, 101, 102]
        (findShortestSeparator [97, 98, 99, 100, 101, 102] [97, 98, 102]) ∧
      sliceLt (findShortestSeparator [97, 98, 99, 100, 101, 102] [97, 98, 102])
        [97, 98, 102]) :=
  ⟨by decide,
    (findShortestSeparator_spec [97, 98, 99, 100, 101, 102] [97, 98, 102]
        (by decide)).2⟩

/-! ## Log record framing (`log::Writer::AddRecord`) -/

namespace Log

/-- Physical record types of the record log (`log_format.h`). -/
inductive RecordType
  | full
  | first
  | middle
  | last
deriving DecidableEq

/-- `kBlockSize` — size of a physical log block. -/
def kBlockSize : Nat := 32768

/-- `kHeaderSize` — checksum (4) + length (2) + type (1). -/
def kHeaderSize : Nat := 7

/-- One item appended to the log file: zero-padding of a block tail, or a
physical record with its type, payload length, and the in-block offset at
which its header starts. -/
inductive Emit
  | pad (n : Nat)
  | record (t : RecordType) (len : Nat) (blockOffset : Nat)
deriving DecidableEq

/-- The block switch at the top of the `AddRecord` loop: when fewer than
`kHeaderSize` bytes remain in the current block, fill them with zero bytes
and start a new block. Returns the emitted padding and the new block
offset. -/
def switchBlock (blockOffset : Nat) : List Emit × Nat :=
  if kBlockSize - blockOffset < kHeaderSize then
    (if 0 < kBlockSize - blockOffset then [.pad (kBlockSize - blockOffset)] else [],
     0)
  else ([], blockOffset)

/-- The do/while loop of `log::Writer::AddRecord`, fuel-encoded (the fuel
only bounds the iteration count; `writerAddRecord` always passes enough).
Each iteration switches blocks if needed, emits one fragment filling at
most the rest of the block, and repeats while payload is left. -/
def addRecordLoop (fuel blockOffset left : Nat) (isBegin : Bool) :
    List Emit × Nat :=
  match fuel with
  | 0 => ([], blockOffset)
  | fuel + 1 =>
    let off := (switchBlock blockOffset).2
    let frag := min left (kBlockSize - off - kHeaderSize)
    let t : RecordType :=
      if isBegin ∧ left = frag then .full
      else if isBegin then .first
      else if left = frag then .last
      else .middle
    if left - frag = 0 then
      ((switchBlock blockOffset).1 ++ [.record t frag off], off + kHeaderSize + frag)
    else
      let rest := addRecordLoop fuel (off + kHeaderSize + frag) (left - frag) false
      ((switchBlock blockOffset).1 ++ .record t frag off :: rest.1, rest.2)

/-- `log::Writer::AddRecord` on a writer whose current block offset is
`blockOffset`, for a payload of `payloadLen` bytes: the sequence of emitted
items and the final block offset. -/
def writerAddRecord (blockOffset payloadLen : Nat) : List Emit × Nat :=
  addRecordLoop (2 * payloadLen + 3) blockOffset payloadLen true

/-- Soundness of one emitted item for the framing: padding fills a block
tail shorter than a header, and a record together with its header lies
entirely within one 32 KiB block. -/
def emitFits (e : Emit) : Prop :=
  match e with
  | .pad n => 0 < n ∧ n < kHeaderSize
  | .record _ len off => off + kHeaderSize + len ≤ kBlockSize

instance (e : Emit) : Decidable (emitFits e) := by
  unfold emitFits; cases e <;> infer_instance

/-- The payload lengths of the records among the emitted items. -/
def recLens (es : List Emit) : List Nat :=
  es.filterMap fun e =>
    match e with
    | .record _ n _ => some n
    | .pad _ => none

/-- The types of the records among the emitted items. -/
def recTypes (es : List Emit) : List RecordType :=
  es.filterMap fun e =>
    match e with
    | .record t _ _ => some t
    | .pad _ => none

theorem recLens_append (a b : List Emit) :
    recLens (a ++ b) = recLens a ++ recLens b := by
  simp [recLens]

theorem recTypes_append (a b : List Emit) :
    recTypes (a ++ b) = recTypes a ++ recTypes b := by
  simp [recTypes]

theorem switchBlock_fst (b : Nat) :
    (switchBlock b).1 = [] ∨ ∃ n, (switchBlock b).1 = [Emit.pad n] := by
  unfold switchBlock
  split
  · split
    · exact Or.inr ⟨_, rfl⟩
    · exact Or.inl rfl
  · exact Or.inl rfl

theorem recLens_switchBlock (b : Nat) : recLens (switchBlock b).1 = [] := by
  rcases switchBlock_fst b with h | ⟨n, h⟩ <;> simp [h, recLens]

theorem recTypes_switchBlock (b : Nat) : recTypes (switchBlock b).1 = [] := by
  rcases switchBlock_fst b with h | ⟨n, h⟩ <;> simp [h, recTypes]

theorem switchBlock_le (blockOffset : Nat) (h : blockOffset ≤ kBlockSize) :
    (switchBlock blockOffset).2 + kHeaderSize ≤ kBlockSize := by
  unfold switchBlock
  split
  · simp [kBlockSize, kHeaderSize]
  · next hge =>
    simp only [kBlockSize, kHeaderSize] at *
    omega

theorem switchBlock_pads (blockOffset : Nat) :
    ∀ e ∈ (switchBlock blockOffset).1, emitFits e := by
  unfold switchBlock
  split
  · next hlt =>
    split
    · next hpos =>
      intro e he
      simp only [List.mem_singleton] at he
      subst he
      exact ⟨hpos, hlt⟩
    · simp
  · simp

theorem switchBlock_no_switch (blockOffset : Nat)
    (h : ¬ kBlockSize - blockOffset < kHeaderSize) :
    (switchBlock blockOffset).2 = blockOffset := by
  simp [switchBlock, h]

theorem switchBlock_switch (blockOffset : Nat)
    (h : kBlockSize - blockOffset < kHeaderSize) :
    (switchBlock blockOffset).2 = 0 := by
  simp [switchBlock, h]

theorem addRecordLoop_spec (fuel : Nat) :
    ∀ blockOffset left isBegin, blockOffset ≤ kBlockSize →
    2 * left + 2 + (if blockOffset = kBlockSize - kHeaderSize then 1 else 0) ≤ fuel →
    (∀ e ∈ (addRecordLoop fuel blockOffset left isBegin).1, emitFits e) ∧
    (recLens (addRecordLoop fuel blockOffset left isBegin).1).sum = left ∧
    (isBegin = true →
      recTypes (addRecordLoop fuel blockOffset left isBegin).1 = [.full] ∨
        ∃ n, recTypes (addRecordLoop fuel blockOffset left isBegin).1 =
          .first :: (List.replicate n .middle ++ [.last])) ∧
    (isBegin = false →
      ∃ n, recTypes (addRecordLoop fuel blockOffset left isBegin).1 =
        List.replicate n .middle ++ [.last]) := by
  induction fuel using Nat.strong_induction_on with
  | _ fuel ih =>
    intro blockOffset left isBegin hoff hfuel
    match fuel, hfuel with
    | 0, hfuel => split at hfuel <;> omega
    | fuel + 1, hfuel =>
      have hsw := switchBlock_le blockOffset hoff
      have hswp := switchBlock_pads blockOffset
      simp only [addRecordLoop]
      set off := (switchBlock blockOffset).2 with hoffdef
      set frag := min left (kBlockSize - off - kHeaderSize) with hfragdef
      have hfrag_le : frag ≤ kBlockSize - off - kHeaderSize := Nat.min_le_right _ _
      have hfit : off + kHeaderSize + frag ≤ kBlockSize := by omega
      by_cases hend : left - frag = 0
      · -- final fragment of this record: emit and stop
        rw [if_pos hend]
        have hfl : left = frag := by omega
        refine ⟨?_, ?_, ?_, ?_⟩
        · intro e he
          rcases List.mem_append.1 he with h1 | h1
          · exact hswp e h1
          · simp only [List.mem_singleton] at h1
            subst h1
            exact hfit
        · rw [recLens_append, recLens_switchBlock]
          simp [recLens, ← hfl]
        · intro hb
          subst hb
          left
          rw [recTypes_append, recTypes_switchBlock]
          simp [recTypes, hfl]
        · intro hb
          subst hb
          refine ⟨0, ?_⟩
          rw [recTypes_append, recTypes_switchBlock]
          simp [recTypes, hfl]
      · -- more payload follows: emit this fragment and keep going
        rw [if_neg hend]
        have hne : ¬ left = frag := by omega
        have hoff' : off + kHeaderSize + frag ≤ kBlockSize := hfit
        have hfuel' : 2 * (left - frag) + 2 +
            (if off + kHeaderSize + frag = kBlockSize - kHeaderSize then 1 else 0) ≤ fuel := by
          by_cases hf0 : frag = 0
          · -- a zero-length fragment: only possible at the exact block tail
            have hmin0 : left ⊓ (kBlockSize - off - kHeaderSize) = 0 := by
              rw [← hfragdef]; exact hf0
            have havail : kBlockSize - off - kHeaderSize = 0 := by
              rcases Nat.min_eq_zero_iff.1 hmin0 with h | h
              · omega
              · exact h
            have hb32761 : blockOffset = kBlockSize - kHeaderSize := by
              by_cases hc : kBlockSize - blockOffset < kHeaderSize
              · have h1 := switchBlock_switch blockOffset hc
                rw [hoffdef, h1] at havail
                simp [kBlockSize, kHeaderSize] at havail
              · have h2 := switchBlock_no_switch blockOffset hc
                rw [hoffdef, h2] at havail
                simp only [kBlockSize, kHeaderSize] at hc havail ⊢
                omega
            have hne2 : ¬ off + kHeaderSize + frag = kBlockSize - kHeaderSize := by
              simp only [kBlockSize, kHeaderSize] at havail hf0 ⊢
              omega
            rw [if_pos hb32761] at hfuel
            rw [if_neg hne2]
            omega
          · have h1 : (if off + kHeaderSize + frag = kBlockSize - kHeaderSize
                then 1 else 0) ≤ 1 := by split <;> omega
            have h2 : (0 : Nat) ≤ (if blockOffset = kBlockSize - kHeaderSize
                then 1 else 0) := Nat.zero_le _
            omega
        obtain ⟨rfits, rsum, _, rfalse⟩ :=
          ih fuel (Nat.lt_succ_self fuel) (off + kHeaderSize + frag)
            (left - frag) false hoff' hfuel'
        obtain ⟨n, hn⟩ := rfalse rfl
        refine ⟨?_, ?_, ?_, ?_⟩
        · intro e he
          rcases List.mem_append.1 he with h1 | h1
          · exact hswp e h1
          · rcases List.mem_cons.1 h1 with h2 | h2
            · subst h2; exact hfit
            · exact rfits e h2
        · simp only [recLens_append, recLens_switchBlock, List.nil_append]
          simp only [recLens, List.filterMap_cons] at rsum ⊢
          simp only [List.sum_cons, rsum]
          omega
        · intro hb
          subst hb
          right
          refine ⟨n, ?_⟩
          simp only [recTypes_append, recTypes_switchBlock, List.nil_append]
          simp only [recTypes, List.filterMap_cons] at hn ⊢
          simp [hn, hne]
        · intro hb
          subst hb
          refine ⟨n + 1, ?_⟩
          simp only [recTypes_append, recTypes_switchBlock, List.nil_append]
          simp only [recTypes, List.filterMap_cons] at hn ⊢
          simp [hn, hne, List.replicate_succ]

theorem writerAddRecord_zero (blockOffset : Nat) :
    writerAddRecord blockOffset 0 =
      ((switchBlock blockOffset).1 ++
        [.record .full 0 (switchBlock blockOffset).2],
       (switchBlock blockOffset).2 + kHeaderSize) := by
  show addRecordLoop 3 blockOffset 0 true = _
  simp [addRecordLoop]

/-- Claim C2: `log::Writer::AddRecord` splits every payload into
consecutive physical records that each fit (header included) within one
32 KiB block, padding block tails shorter than 7 bytes with zeroes; a
record emitted as a single fragment is typed FULL, otherwise the fragments
are typed FIRST, MIDDLE..., LAST; an empty payload still emits exactly one
FULL fragment with zero payload; and an 80 KiB record written into a fresh
file emits FIRST(32761) + MIDDLE(32761) + LAST(16398) across three
blocks. -/
theorem writerAddRecord_spec (blockOffset payloadLen : Nat)
    (h : blockOffset ≤ kBlockSize) :
    (∀ e ∈ (writerAddRecord blockOffset payloadLen).1, emitFits e) ∧
    (recLens (writerAddRecord blockOffset payloadLen).1).sum = payloadLen ∧
    (recTypes (writerAddRecord blockOffset payloadLen).1 = [.full] ∨
      ∃ n, recTypes (writerAddRecord blockOffset payloadLen).1 =
        .first :: (List.replicate n .middle ++ [.last])) ∧
    (payloadLen = 0 →
      recTypes (writerAddRecord blockOffset payloadLen).1 = [.full] ∧
      recLens (writerAddRecord blockOffset payloadLen).1 = [0]) ∧
    (writerAddRecord 0 81920).1 =
      [.record .first 32761 0, .record .middle 32761 0, .record .last 16398 0] := by
  have hfuel : 2 * payloadLen + 2 +
      (if blockOffset = kBlockSize - kHeaderSize then 1 else 0) ≤
        2 * payloadLen + 3 := by
    split <;> omega
  obtain ⟨hfits, hsum, htypes, _⟩ :=
    addRecordLoop_spec (2 * payloadLen + 3) blockOffset payloadLen true h hfuel
  refine ⟨hfits, hsum, htypes rfl, ?_, by decide⟩
  intro hp
  subst hp
  rw [writerAddRecord_zero]
  simp only [recTypes_append, recTypes_switchBlock, recLens_append,
    recLens_switchBlock]
  simp [recTypes, recLens]

/-- Witness for C2 at the 20 KiB fresh-file example from the spec (one
FULL fragment). -/
theorem writerAddRecord_spec_witness :
    (0 : Nat) ≤ kBlockSize ∧
    (recTypes (writerAddRecord 0 20480).1 = [.full] ∨
      ∃ n, recTypes (writerAddRecord 0 20480).1 =
        .first :: (List.replicate n .middle ++ [.last])) :=
  ⟨Nat.zero_le _, (writerAddRecord_spec 0 20480 (Nat.zero_le _)).2.2.1⟩

end Log


/-! ## Coding helpers (`util/coding`) -/

/-- The emission loop of `EncodeVarint32` / `EncodeVarint64`, recursing on
the number of bytes still allowed (ten bytes suffice for any 64-bit
value, the widest integer the code encodes). -/
def encodeVarintAux : Nat → Nat → Bytes
  | 0, v => [v % 128]
  | fuel + 1, v =>
    if v < 128 then [v] else (v % 128 + 128) :: encodeVarintAux fuel (v / 128)

/-- `EncodeVarint32` / `EncodeVarint64`: little-endian base-128; each byte
below the last carries a continuation bit (MSB set). -/
def encodeVarint (v : Nat) : Bytes := encodeVarintAux 10 v

/-- `EncodeFixed32`: four bytes, little-endian. -/
def encodeFixed32 (v : Nat) : Bytes :=
  [v % 256, v / 256 % 256, v / 65536 % 256, v / 16777216 % 256]

/-- `EncodeFixed64`: eight bytes, little-endian. -/
def encodeFixed64 (v : Nat) : Bytes :=
  [v % 256, v / 256 % 256, v / 65536 % 256, v / 16777216 % 256,
   v / 4294967296 % 256, v / 1099511627776 % 256,
   v / 281474976710656 % 256, v / 72057594037927936 % 256]

/-! ## Block building (`BlockBuilder`) -/

namespace Block

/-- The state of a `BlockBuilder`: its buffer, restart array, entry count
since the last restart, last added key, and the configured
`block_restart_interval`. -/
structure BlockBuilder where
  restartInterval : Nat
  buffer : Bytes
  restarts : List Nat
  counter : Nat
  last_key : Bytes
deriving DecidableEq

/-- A fresh `BlockBuilder` (constructor / `Reset`): empty buffer, restart
array `[0]`, counter zero. -/
def BlockBuilder.init (interval : Nat) : BlockBuilder :=
  { restartInterval := interval, buffer := [], restarts := [0],
    counter := 0, last_key := [] }

/-- `BlockBuilder::Add(key, value)`. Returns the new state together with
the entry's stored `shared` value and the byte offset within the buffer at
which the entry was appended. The first differing index of `last_key` and
`key` is their longest-common-prefix length, the `shared` the code
computes. -/
def BlockBuilder.add (b : BlockBuilder) (key value : Bytes) :
    BlockBuilder × Nat × Nat :=
  let shared :=
    if b.counter < b.restartInterval then diffIndex b.last_key key else 0
  let restarts :=
    if b.counter < b.restartInterval then b.restarts
    else b.restarts ++ [b.buffer.length]
  let counter := if b.counter < b.restartInterval then b.counter else 0
  let nonShared := key.length - shared
  let entry := encodeVarint shared ++ encodeVarint nonShared ++
    encodeVarint value.length ++ key.drop shared ++ value
  ({ restartInterval := b.restartInterval,
     buffer := b.buffer ++ entry,
     restarts := restarts,
     counter := counter + 1,
     last_key := b.last_key.take shared ++ key.drop shared },
   shared, b.buffer.length)

/-- `BlockBuilder::Finish`: append the restart offsets (fixed32 each) and
the restart count (fixed32). -/
def BlockBuilder.finish (b : BlockBuilder) : Bytes :=
  b.buffer ++ (b.restarts.map encodeFixed32).flatten ++
    encodeFixed32 b.restarts.length

/-- `b.empty()` — no entry added since the last reset. -/
def BlockBuilder.isEmpty (b : BlockBuilder) : Bool := b.buffer.isEmpty

/-- `BlockBuilder::CurrentSizeEstimate`: raw buffer, restart array
(4 bytes per entry), restart count (4 bytes). -/
def BlockBuilder.sizeEstimate (b : BlockBuilder) : Nat :=
  b.buffer.length + b.restarts.length * 4 + 4

/-- Run `Add` over a list of key/value pairs, collecting each entry's
`(shared, offset)` pair. -/
def BlockBuilder.addAll (b : BlockBuilder) :
    List (Bytes × Bytes) → BlockBuilder × List (Nat × Nat)
  | [] => (b, [])
  | (k, v) :: rest =>
    let step := b.add k v
    let next := step.1.addAll rest
    (next.1, step.2 :: next.2)

theorem diffIndex_le_left (a b : Bytes) : diffIndex a b ≤ a.length := by
  induction a generalizing b with
  | nil => cases b <;> simp [diffIndex]
  | cons x xs ih =>
    cases b with
    | nil => simp [diffIndex]
    | cons y ys =>
      by_cases hxy : x = y
      · simpa [diffIndex, hxy] using ih ys
      · simp [diffIndex, hxy]

theorem diffIndex_take (a b : Bytes) :
    a.take (diffIndex a b) = b.take (diffIndex a b) := by
  induction a generalizing b with
  | nil => cases b <;> simp [diffIndex]
  | cons x xs ih =>
    cases b with
    | nil => simp [diffIndex]
    | cons y ys =>
      by_cases hxy : x = y
      · subst hxy
        simp [diffIndex, List.take_succ_cons, ih ys]
      · simp [diffIndex, hxy]

/-- After `Add(key, value)`, `last_key_` equals `key` (the source asserts
`Slice(last_key_) == key`). -/
theorem BlockBuilder.add_last_key (b : BlockBuilder) (key value : Bytes) :
    ((b.add key value).1).last_key = key := by
  unfold BlockBuilder.add
  by_cases hc : b.counter < b.restartInterval
  · simp only [if_pos hc]
    rw [diffIndex_take]
    exact List.take_append_drop _ key
  · simp [if_neg hc]

/-- Claim C5: for a `BlockBuilder` with `block_restart_interval = r ≥ 1`,
once `r` entries have been added since the last restart the next `Add` is
stored with `shared = 0` and its byte offset is appended to the restart
array, while any other `Add` stores `shared` equal to the longest common
prefix with the previous key and leaves the restart array unchanged; with
`r = 2` and keys "Axl","Axlaa","Axlab","Axlbb" (each value "vv") the four
entries carry shared lengths 0,3,0,3 and the restart array points at the
first and third entries (offsets 0 and 15). -/
theorem blockBuilder_add_spec (b : BlockBuilder) (key value : Bytes)
    (_hr : 1 ≤ b.restartInterval) :
    (b.restartInterval ≤ b.counter →
      (b.add key value).2.1 = 0 ∧
      ((b.add key value).1).restarts = b.restarts ++ [b.buffer.length]) ∧
    (b.counter < b.restartInterval →
      (b.add key value).2.1 = diffIndex b.last_key key ∧
      ((b.add key value).1).restarts = b.restarts) ∧
    (BlockBuilder.addAll (.init 2)
        [([65, 120, 108], [118, 118]),
         ([65, 120, 108, 97, 97], [118, 118]),
         ([65, 120, 108, 97, 98], [118, 118]),
         ([65, 120, 108, 98, 98], [118, 118])]).2 =
      [(0, 0), (3, 8), (0, 15), (3, 25)] ∧
    ((BlockBuilder.addAll (.init 2)
        [([65, 120, 108], [118, 118]),
         ([65, 120, 108, 97, 97], [118, 118]),
         ([65, 120, 108, 97, 98], [118, 118]),
         ([65, 120, 108, 98, 98], [118, 118])]).1).restarts = [0, 15] := by
  refine ⟨?_, ?_, by decide, by decide⟩
  · intro h
    have hc : ¬ b.counter < b.restartInterval := by omega
    simp [BlockBuilder.add, hc]
  · intro hc
    simp [BlockBuilder.add, hc]

/-- Witness for C5: the non-restart branch on a fresh builder. -/
theorem blockBuilder_add_spec_witness :
    (1 ≤ (BlockBuilder.init 2).restartInterval ∧
      (BlockBuilder.init 2).counter < (BlockBuilder.init 2).restartInterval) ∧
    ((BlockBuilder.init 2).add [65] [118]).2.1 =
      diffIndex (BlockBuilder.init 2).last_key [65] ∧
    (((BlockBuilder.init 2).add [65] [118]).1).restarts =
      (BlockBuilder.init 2).restarts :=
  ⟨⟨by decide, by decide⟩,
    (blockBuilder_add_spec (BlockBuilder.init 2) [65] [118] (by decide)).2.1
      (by decide)⟩

/-- With `block_restart_interval = 1` every `Add` stores `shared = 0`: on
a fresh builder the previous key is empty, and after any `Add` the counter
is at least 1, so the restart branch is taken. -/
theorem BlockBuilder.add_interval_one (b : BlockBuilder)
    (h1 : b.restartInterval = 1) (h2 : b.last_key = [] ∨ 1 ≤ b.counter)
    (key value : Bytes) : (b.add key value).2.1 = 0 := by
  unfold BlockBuilder.add
  by_cases hc : b.counter < b.restartInterval
  · rcases h2 with h | h
    · simp only [if_pos hc, h]
      cases key <;> rfl
    · omega
  · simp [if_neg hc]

/-- The counter is positive after any `Add`. -/
theorem BlockBuilder.add_counter_pos (b : BlockBuilder) (key value : Bytes) :
    1 ≤ ((b.add key value).1).counter := by
  unfold BlockBuilder.add
  split <;> simp

end Block

/-! ## Table building (`TableBuilder`, `Footer`) -/

/-- `BytewiseComparatorImpl::FindShortSuccessor`: increment the first byte
below `0xff` and truncate after it; a key of all `0xff` bytes is left
unchanged. -/
def findShortSuccessor : Bytes → Bytes
  | [] => []
  | b :: bs => if b ≠ 255 then [b + 1] else b :: findShortSuccessor bs

namespace Table

/-- Compression types (`kNoCompression = 0`, `kSnappyCompression = 1`). -/
inductive CompressionType
  | noCompression
  | snappyCompression
deriving DecidableEq

/-- The byte stored in a raw block trailer for each compression type. -/
def CompressionType.byte : CompressionType → Nat
  | .noCompression => 0
  | .snappyCompression => 1

/-- Modelled from the spec: a filter policy — a name and
`create_filter(keys) → bytes`; the bloom-filter implementation is outside
the excerpt (spec §4.7, §6). -/
structure FilterPolicy where
  name : Bytes
  createFilter : List Bytes → Bytes

/-- Modelled from the spec: `FilterBlockBuilder` state (`filter_block.cc`
is not in the excerpt, only its header is): the policy, the keys collected
since the last filter was generated, the filter data built so far, and the
byte offsets of the generated filters (spec §4.7). -/
structure FilterBlockBuilder where
  policy : FilterPolicy
  keys : List Bytes
  result : Bytes
  filter_offsets : List Nat

/-- Modelled from the spec: `kFilterBaseLg = 11` — one filter per 2 KiB
window of data-block offsets. -/
def kFilterBaseLg : Nat := 11

def kFilterBase : Nat := 2048

/-- Modelled from the spec: generate one filter over the pending keys and
record its offset (offset only — an empty filter — when no key is
pending). -/
def FilterBlockBuilder.generateFilter (f : FilterBlockBuilder) :
    FilterBlockBuilder :=
  if f.keys.isEmpty then
    { f with filter_offsets := f.filter_offsets ++ [f.result.length] }
  else
    { f with keys := [],
             result := f.result ++ f.policy.createFilter f.keys,
             filter_offsets := f.filter_offsets ++ [f.result.length] }

/-- Modelled from the spec: `AddKey` records the key for the current
window. -/
def FilterBlockBuilder.addKey (f : FilterBlockBuilder) (key : Bytes) :
    FilterBlockBuilder :=
  { f with keys := f.keys ++ [key] }

/-- Modelled from the spec: `StartBlock(block_offset)` closes every window
elapsed before `block_offset`, emitting a (possibly empty) filter for
each. -/
def FilterBlockBuilder.startBlock (f : FilterBlockBuilder)
    (blockOffset : Nat) : FilterBlockBuilder :=
  go (blockOffset / kFilterBase - f.filter_offsets.length) f
where go : Nat → FilterBlockBuilder → FilterBlockBuilder
  | 0, f => f
  | n + 1, f => go n f.generateFilter

/-- Modelled from the spec: `Finish` generates a filter for any pending
keys, then emits the filter data, the filter offsets (fixed32 each), the
byte offset of the offset array (fixed32), and the `base_lg` byte. -/
def FilterBlockBuilder.finish (f : FilterBlockBuilder) : Bytes :=
  let g := if f.keys.isEmpty then f else f.generateFilter
  g.result ++ (g.filter_offsets.map encodeFixed32).flatten ++
    encodeFixed32 g.result.length ++ [kFilterBaseLg]

/-- The `Options` fields `TableBuilder` reads. The comparator is
identified by a tag: `ChangeOptions` compares comparator identity, and the
write path of this excerpt uses the default bytewise comparator. -/
structure Options where
  comparator : Nat
  block_restart_interval : Nat
  block_size : Nat
  compression : CompressionType
  filter_policy : Option FilterPolicy

/-- `TableBuilder::Rep`. `file` holds the bytes written so far and
`offset` the running file offset; `WritableFile` appends are modelled as
always succeeding, so the status plumbing is elided. -/
structure Rep where
  options : Options
  index_block_options : Options
  file : Bytes
  offset : Nat
  data_block : Block.BlockBuilder
  index_block : Block.BlockBuilder
  last_key : Bytes
  num_entries : Nat
  closed : Bool
  filter_block : Option FilterBlockBuilder
  pending_index_entry : Bool
  pending_handle : Nat × Nat

/-- `TableBuilder::Rep::Rep` followed by the `TableBuilder` constructor
(which calls `filter_block->StartBlock(0)`):
`index_block_options.block_restart_interval` is forced to 1 after copying
the caller's options. The C++ `BlockBuilder`s read the interval through a
pointer into the rep's options; the model stores the current value inside
each builder and keeps it in sync. -/
def mkRep (opt : Options) : Rep :=
  { options := opt,
    index_block_options := { opt with block_restart_interval := 1 },
    file := [], offset := 0,
    data_block := Block.BlockBuilder.init opt.block_restart_interval,
    index_block := Block.BlockBuilder.init 1,
    last_key := [], num_entries := 0, closed := false,
    filter_block := opt.filter_policy.map fun p =>
      FilterBlockBuilder.startBlock
        { policy := p, keys := [], result := [], filter_offsets := [] } 0,
    pending_index_entry := false,
    pending_handle := (0, 0) }

/-- `TableBuilder::ChangeOptions`: changing the comparator mid-build is an
`InvalidArgument` error (`none`); otherwise both option sets are replaced
and the index block options again force `block_restart_interval = 1` (the
live builders pick the new interval up through their options pointer). -/
def changeOptions (r : Rep) (o : Options) : Option Rep :=
  if o.comparator ≠ r.options.comparator then none
  else some { r with
    options := o,
    index_block_options := { o with block_restart_interval := 1 },
    data_block := { r.data_block with restartInterval := o.block_restart_interval },
    index_block := { r.index_block with restartInterval := 1 } }

/-- `kBlockTrailerSize`: compression byte + fixed32 CRC. -/
def kBlockTrailerSize : Nat := 5

/-- `crc32c::Mask` (spec §6): rotate the 32-bit CRC right by 15 and add
`0xA282EAD8`, in 32-bit arithmetic. -/
def crcMask (c : Nat) : Nat :=
  (Nat.lor (c % 4294967296 / 32768) (c * 131072 % 4294967296) + 2726488792) %
    4294967296

/-- The bytes `WriteRawBlock` appends for given block contents: the
contents, then the compression-type byte, then the masked CRC (fixed32)
of the contents extended with the type byte. `crc32c` abstracts the CRC
function, whose internals are outside the core. -/
def rawBlockBytes (crc32c : Bytes → Nat) (contents : Bytes)
    (ty : CompressionType) : Bytes :=
  contents ++ ty.byte :: encodeFixed32 (crcMask (crc32c (contents ++ [ty.byte])))

/-- `TableBuilder::WriteRawBlock`: the handle records the block's offset
and content size (trailer excluded); contents and trailer are appended and
the offset advances past both. -/
def writeRawBlock (crc32c : Bytes → Nat) (r : Rep) (contents : Bytes)
    (ty : CompressionType) : Rep × (Nat × Nat) :=
  ({ r with
      file := r.file ++ rawBlockBytes crc32c contents ty
      offset := r.offset + contents.length + kBlockTrailerSize },
   (r.offset, contents.length))

/-- The contents/type selection of `TableBuilder::WriteBlock`: `snappy`
abstracts `port::Snappy_Compress` (`none` when unsupported); the
compressed form is kept only when it saves at least 12.5%. -/
def blockContents (snappy : Bytes → Option Bytes) (c : CompressionType)
    (raw : Bytes) : Bytes × CompressionType :=
  match c with
  | .noCompression => (raw, .noCompression)
  | .snappyCompression =>
    match snappy raw with
    | some comp =>
      if comp.length < raw.length - raw.length / 8 then
        (comp, .snappyCompression)
      else (raw, .noCompression)
    | none => (raw, .noCompression)

/-- `TableBuilder::WriteBlock`: finish the block, select compression,
write the raw block, and reset the builder (returned last). -/
def writeBlock (crc32c : Bytes → Nat) (snappy : Bytes → Option Bytes)
    (r : Rep) (b : Block.BlockBuilder) :
    Rep × (Nat × Nat) × Block.BlockBuilder :=
  let ct := blockContents snappy r.options.compression b.finish
  let out := writeRawBlock crc32c r ct.1 ct.2
  (out.1, out.2, Block.BlockBuilder.init b.restartInterval)

/-- `TableBuilder::Flush`: write out the current data block (no-op when
it is empty), mark a pending index entry for it, and start the filter
window at the new offset. -/
def tableFlush (crc32c : Bytes → Nat) (snappy : Bytes → Option Bytes)
    (r : Rep) : Rep :=
  if r.data_block.isEmpty then r
  else
    let out := writeBlock crc32c snappy r r.data_block
    let r1 := { out.1 with
      data_block := out.2.2
      pending_index_entry := true
      pending_handle := out.2.1 }
    match r1.filter_block with
    | some fb => { r1 with filter_block := some (fb.startBlock r1.offset) }
    | none => r1

/-- `BlockHandle::EncodeTo`: offset then size, varint64 each. -/
def blockHandleEncode (h : Nat × Nat) : Bytes :=
  encodeVarint h.1 ++ encodeVarint h.2

/-- `TableBuilder::Add`: close any pending index entry with a shortest
separator between the previous block's last key and the new key, feed the
filter, append to the data block, and flush once the size estimate
reaches `block_size`. -/
def tableAdd (crc32c : Bytes → Nat) (snappy : Bytes → Option Bytes)
    (r : Rep) (key value : Bytes) : Rep :=
  let r1 :=
    if r.pending_index_entry then
      { r with
        index_block := (r.index_block.add (findShortestSeparator r.last_key key)
          (blockHandleEncode r.pending_handle)).1,
        pending_index_entry := false }
    else r
  let r2 :=
    match r1.filter_block with
    | some fb => { r1 with filter_block := some (fb.addKey key) }
    | none => r1
  let r3 := { r2 with
    last_key := key,
    num_entries := r2.num_entries + 1,
    data_block := (r2.data_block.add key value).1 }
  if r3.options.block_size ≤ r3.data_block.sizeEstimate then
    tableFlush crc32c snappy r3
  else r3

/-- `kTableMagicNumber` (`table/format.h`). -/
def kTableMagicNumber : Nat := 0xdb4775248b80fb57

/-- The eight little-endian magic bytes ending every table file. -/
def magicBytes : Bytes :=
  encodeFixed32 (kTableMagicNumber % 4294967296) ++
    encodeFixed32 (kTableMagicNumber / 4294967296)

/-- `Footer::EncodeTo`: the metaindex and index handles, resized (C++
`std::string::resize`, which pads with zero bytes) to
`2 * BlockHandle::kMaxEncodedLength = 40` bytes, then the magic number as
two fixed32 halves, low half first. -/
def footerEncode (metaindexHandle indexHandle : Nat × Nat) : Bytes :=
  let handles := blockHandleEncode metaindexHandle ++ blockHandleEncode indexHandle
  (handles.take 40 ++ List.replicate (40 - handles.length) 0) ++ magicBytes

/-- The metaindex key `"filter."` followed by the policy name. -/
def filterNameKey (p : FilterPolicy) : Bytes :=
  [102, 105, 108, 116, 101, 114, 46] ++ p.name

/-- `TableBuilder::Finish`: flush the data block, then write the filter
block (uncompressed), the metaindex block (with the `"filter.<name>"`
mapping when a filter is present), the index block (first closing a
pending entry with a short successor of the last key), and the footer. -/
def tableFinish (crc32c : Bytes → Nat) (snappy : Bytes → Option Bytes)
    (r : Rep) : Rep :=
  let r0 := { tableFlush crc32c snappy r with closed := true }
  let fr : Rep × (Nat × Nat) :=
    match r0.filter_block with
    | some fb => writeRawBlock crc32c r0 fb.finish .noCompression
    | none => (r0, (0, 0))
  let r1 := fr.1
  let metaIndexBlock : Block.BlockBuilder :=
    match r1.filter_block, r1.options.filter_policy with
    | some _, some p =>
      ((Block.BlockBuilder.init r1.options.block_restart_interval).add
        (filterNameKey p) (blockHandleEncode fr.2)).1
    | _, _ => Block.BlockBuilder.init r1.options.block_restart_interval
  let mo := writeBlock crc32c snappy r1 metaIndexBlock
  let r2 := mo.1
  let r3 :=
    if r2.pending_index_entry then
      { r2 with
        index_block := (r2.index_block.add (findShortSuccessor r2.last_key)
          (blockHandleEncode r2.pending_handle)).1,
        pending_index_entry := false }
    else r2
  let io := writeBlock crc32c snappy r3 r3.index_block
  let r4 := { io.1 with index_block := io.2.2 }
  { r4 with
    file := r4.file ++ footerEncode mo.2.1 io.2.1
    offset := r4.offset + (footerEncode mo.2.1 io.2.1).length }

/-- Claim C9: every `TableBuilder` builds its index block with
`block_restart_interval` forced to 1 — both the rep constructor and
`ChangeOptions` re-force the value to 1 regardless of the restart interval
in the supplied `Options` — and with interval 1 every index entry is a
restart point stored with `shared = 0`. -/
theorem indexRestartInterval_one (opt o : Options) (r r' : Rep) :
    (mkRep opt).index_block_options.block_restart_interval = 1 ∧
    (mkRep opt).index_block.restartInterval = 1 ∧
    (changeOptions r o = some r' →
      r'.index_block_options.block_restart_interval = 1 ∧
      r'.index_block.restartInterval = 1) ∧
    (∀ b : Block.BlockBuilder, b.restartInterval = 1 →
      b.last_key = [] ∨ 1 ≤ b.counter →
      ∀ key value, (b.add key value).2.1 = 0) := by
  refine ⟨rfl, rfl, ?_, ?_⟩
  · intro h
    unfold changeOptions at h
    split at h
    · exact absurd h (by simp)
    · obtain rfl := Option.some.inj h
      exact ⟨rfl, rfl⟩
  · intro b h1 h2 key value
    exact Block.BlockBuilder.add_interval_one b h1 h2 key value

/-- Concrete options for witnesses: no filter policy, bytewise
comparator. -/
def plainOptions (interval : Nat) : Options :=
  { comparator := 0, block_restart_interval := interval,
    block_size := 4096, compression := .noCompression,
    filter_policy := none }

/-- Witness for C9: a restart-interval-1 builder stores `shared = 0`. -/
theorem indexRestartInterval_one_witness :
    ((Block.BlockBuilder.init 1).restartInterval = 1 ∧
      ((Block.BlockBuilder.init 1).last_key = [] ∨
        1 ≤ (Block.BlockBuilder.init 1).counter)) ∧
    ((Block.BlockBuilder.init 1).add [97] [118]).2.1 = 0 :=
  ⟨⟨rfl, Or.inl rfl⟩,
    (indexRestartInterval_one (plainOptions 7) (plainOptions 7)
        (mkRep (plainOptions 7)) (mkRep (plainOptions 7))).2.2.2
      (Block.BlockBuilder.init 1) rfl (Or.inl rfl) [97] [118]⟩

theorem footerEncode_length (mh ih : Nat × Nat) :
    (footerEncode mh ih).length = 48 := by
  simp [footerEncode, magicBytes, encodeFixed32]
  omega

/-- The layout claim C4 ascribes to `Finish` once all data blocks are
flushed: the filter block written uncompressed, the metaindex block whose
single entry maps `"filter.<policy_name>"` to the filter block's handle,
the index block (with a pending entry closed by a short successor of the
last key), and the footer. -/
def finishLayout (crc32c : Bytes → Nat) (snappy : Bytes → Option Bytes)
    (r : Rep) (p : FilterPolicy) (fb : FilterBlockBuilder) : Bytes :=
  let filterContents := fb.finish
  let filterHandle : Nat × Nat := (r.offset, filterContents.length)
  let off1 := r.offset + filterContents.length + kBlockTrailerSize
  let mc := blockContents snappy r.options.compression
    (((Block.BlockBuilder.init r.options.block_restart_interval).add
        (filterNameKey p) (blockHandleEncode filterHandle)).1).finish
  let metaindexHandle : Nat × Nat := (off1, mc.1.length)
  let off2 := off1 + mc.1.length + kBlockTrailerSize
  let indexBuilder :=
    if r.pending_index_entry then
      (r.index_block.add (findShortSuccessor r.last_key)
        (blockHandleEncode r.pending_handle)).1
    else r.index_block
  let ic := blockContents snappy r.options.compression indexBuilder.finish
  let indexHandle : Nat × Nat := (off2, ic.1.length)
  rawBlockBytes crc32c filterContents .noCompression ++
    rawBlockBytes crc32c mc.1 mc.2 ++
    rawBlockBytes crc32c ic.1 ic.2 ++
    footerEncode metaindexHandle indexHandle

/-- Claim C4: on a `TableBuilder` whose data blocks are already flushed
and which carries a filter, `Finish` writes, after the data already in the
file, exactly: the filter block (uncompressed), the metaindex block
mapping `"filter.<policy_name>"` to the filter block's handle, the index
block (closing a pending entry with a shortest-successor key when one
exists), and a footer of exactly 48 bytes — the varint-encoded metaindex
and index handles padded to 40 bytes followed by the 8-byte little-endian
magic number at the very end of the file. -/
theorem tableFinish_spec (crc32c : Bytes → Nat) (snappy : Bytes → Option Bytes)
    (r : Rep) (p : FilterPolicy) (fb : FilterBlockBuilder)
    (hdb : r.data_block.isEmpty = true)
    (hp : r.options.filter_policy = some p)
    (hf : r.filter_block = some fb) :
    (tableFinish crc32c snappy r).file =
      r.file ++ finishLayout crc32c snappy r p fb ∧
    (∀ mh ih : Nat × Nat, (footerEncode mh ih).length = 48) ∧
    (∀ mh ih : Nat × Nat,
      footerEncode mh ih =
        ((blockHandleEncode mh ++ blockHandleEncode ih).take 40 ++
          List.replicate
            (40 - (blockHandleEncode mh ++ blockHandleEncode ih).length) 0) ++
          magicBytes) ∧
    magicBytes.length = 8 ∧
    magicBytes <:+ (tableFinish crc32c snappy r).file := by
  have hmain : (tableFinish crc32c snappy r).file =
      r.file ++ finishLayout crc32c snappy r p fb := by
    by_cases hpe : r.pending_index_entry
    · simp [tableFinish, tableFlush, finishLayout, writeBlock, writeRawBlock,
        hdb, hp, hf, hpe, List.append_assoc]
    · simp [tableFinish, tableFlush, finishLayout, writeBlock, writeRawBlock,
        hdb, hp, hf, hpe, List.append_assoc]
  refine ⟨hmain, footerEncode_length, fun mh ih => rfl, rfl, ?_⟩
  rw [hmain]
  have h1 : magicBytes <:+ finishLayout crc32c snappy r p fb := by
    unfold finishLayout footerEncode
    exact (List.suffix_append _ _).trans (List.suffix_append _ _)
  exact h1.trans (List.suffix_append _ _)

/-- A concrete filter policy for the C4 witness. -/
def witnessPolicy : FilterPolicy :=
  { name := [98, 102], createFilter := fun keys => [keys.length] }

/-- Concrete options carrying the witness filter policy. -/
def witnessOptions : Options :=
  { comparator := 0, block_restart_interval := 16, block_size := 4096,
    compression := .noCompression, filter_policy := some witnessPolicy }

/-- Witness for C4 on a freshly constructed builder with a filter
policy. -/
theorem tableFinish_spec_witness :
    ((mkRep witnessOptions).data_block.isEmpty = true ∧
      (mkRep witnessOptions).options.filter_policy = some witnessPolicy ∧
      (mkRep witnessOptions).filter_block =
        some { policy := witnessPolicy, keys := [], result := [],
               filter_offsets := [] }) ∧
    (tableFinish (fun _ => 0) (fun _ => none) (mkRep witnessOptions)).file =
      (mkRep witnessOptions).file ++
        finishLayout (fun _ => 0) (fun _ => none) (mkRep witnessOptions)
          witnessPolicy
          { policy := witnessPolicy, keys := [], result := [],
            filter_offsets := [] } :=
  ⟨⟨rfl, rfl, rfl⟩,
    (tableFinish_spec (fun _ => 0) (fun _ => none) (mkRep witnessOptions)
        witnessPolicy
        { policy := witnessPolicy, keys := [], result := [],
          filter_offsets := [] } rfl rfl rfl).1⟩

end Table

/-! ## Write batch (`WriteBatch::Iterate`) -/

/-- Modelled from the spec: the DELETION value-type tag (`dbformat.h` is
not in the excerpt; spec §3 packs the tag as `(sequence << 8) | type`). -/
def kTypeDeletion : Nat := 0

/-- Modelled from the spec: the VALUE value-type tag; VALUE is also the
type used in seek keys (spec §3, §4.11). -/
def kTypeValue : Nat := 1

namespace Batch

/-- Modelled from the spec: the reading loop of `GetVarint32Ptr`
(`util/coding` is not in the excerpt; spec §3/§6 define varints as
little-endian base-128 with a continuation MSB, at most five bytes for a
32-bit value, truncated to 32 bits). Returns the decoded value and the
remaining input, or `none` when the prefix is malformed. -/
def getVarint32Go : Nat → Nat → Nat → Bytes → Option (Nat × Bytes)
  | 0, _, _, _ => none
  | _ + 1, _, _, [] => none
  | fuel + 1, shift, acc, b :: rest =>
    if b % 256 ≥ 128 then
      getVarint32Go fuel (shift + 7) (acc + (b % 256 - 128) * 2 ^ shift) rest
    else some ((acc + b % 256 * 2 ^ shift) % 2 ^ 32, rest)

/-- Modelled from the spec: `GetVarint32` on a slice. -/
def getVarint32 (input : Bytes) : Option (Nat × Bytes) :=
  getVarint32Go 5 0 0 input

/-- `GetLengthPrefixedSlice(Slice*, Slice*)`: a varint32 length followed
by that many bytes; fails when the varint is malformed or the input is
too short. -/
def getLengthPrefixedSlice (input : Bytes) : Option (Bytes × Bytes) :=
  match getVarint32 input with
  | some (len, rest) =>
    if len ≤ rest.length then some (rest.take len, rest.drop len) else none
  | none => none

/-- Modelled from the spec: `DecodeFixed32`, four little-endian bytes. -/
def decodeFixed32 (bs : Bytes) : Nat :=
  bs.getD 0 0 % 256 + bs.getD 1 0 % 256 * 256 +
    bs.getD 2 0 % 256 * 65536 + bs.getD 3 0 % 256 * 16777216

/-- One handler invocation made by `WriteBatch::Iterate`. -/
inductive HandlerOp
  | put (key value : Bytes)
  | del (key : Bytes)
deriving DecidableEq

/-- Outcome of `WriteBatch::Iterate` (messages elided). -/
inductive BatchStatus
  | ok
  | corruption
deriving DecidableEq

/-- The record-walking loop of `WriteBatch::Iterate`: the handler
invocations made (also those before a decode error) and, when no decode
error occurred, the number of records seen (`found`). Fuel bounds the
iteration count; every iteration consumes at least the tag byte, so the
caller's `rep.length` never runs out. -/
def iterateLoop : Nat → Bytes → List HandlerOp × Option Nat
  | 0, input => ([], if input.isEmpty then some 0 else none)
  | _fuel + 1, [] => ([], some 0)
  | fuel + 1, tag :: rest =>
    if tag % 256 = kTypeValue then
      match getLengthPrefixedSlice rest with
      | some (key, rest1) =>
        match getLengthPrefixedSlice rest1 with
        | some (value, rest2) =>
          let out := iterateLoop fuel rest2
          (.put key value :: out.1, out.2.map (· + 1))
        | none => ([], none)
      | none => ([], none)
    else if tag % 256 = kTypeDeletion then
      match getLengthPrefixedSlice rest with
      | some (key, rest1) =>
        let out := iterateLoop fuel rest1
        (.del key :: out.1, out.2.map (· + 1))
      | none => ([], none)
    else ([], none)

/-- `kHeader`: 8-byte sequence number plus 4-byte count. -/
def kHeader : Nat := 12

/-- `WriteBatch::Iterate(handler)`: reject representations shorter than
the header; walk the records invoking the handler; report corruption when
a record fails to decode, an unknown tag appears, or the number of records
walked differs from the stored count. -/
def writeBatchIterate (rep : Bytes) : BatchStatus × List HandlerOp :=
  if rep.length < kHeader then (.corruption, [])
  else
    let out := iterateLoop rep.length (rep.drop kHeader)
    match out.2 with
    | none => (.corruption, out.1)
    | some found =>
      (if found = decodeFixed32 (rep.drop 8) then .ok else .corruption, out.1)

/-- The claim's reading of a well-formed batch body: a sequence of
records, each a tag byte (VALUE with key and value, DELETION with key,
anything else malformed), each key/value length-prefixed. -/
def decodeRecords : Nat → Bytes → Option (List HandlerOp)
  | 0, input => if input.isEmpty then some [] else none
  | _fuel + 1, [] => some []
  | fuel + 1, tag :: rest =>
    if tag % 256 = kTypeValue then
      match getLengthPrefixedSlice rest with
      | some (key, rest1) =>
        match getLengthPrefixedSlice rest1 with
        | some (value, rest2) =>
          (decodeRecords fuel rest2).map (.put key value :: ·)
        | none => none
      | none => none
    else if tag % 256 = kTypeDeletion then
      match getLengthPrefixedSlice rest with
      | some (key, rest1) => (decodeRecords fuel rest1).map (.del key :: ·)
      | none => none
    else none

/-- The claim's notion of a malformed batch, negated: at least the
12-byte header, records that decode, and a record count matching the
stored count. -/
def wellFormedBatch (rep : Bytes) : Prop :=
  kHeader ≤ rep.length ∧
  (decodeRecords rep.length (rep.drop kHeader)).map List.length =
    some (decodeFixed32 (rep.drop 8))

instance (rep : Bytes) : Decidable (wellFormedBatch rep) := by
  unfold wellFormedBatch; infer_instance

theorem iterateLoop_decodeRecords (fuel : Nat) : ∀ input : Bytes,
    (iterateLoop fuel input).2 =
      (decodeRecords fuel input).map List.length ∧
    (∀ recs, decodeRecords fuel input = some recs →
      (iterateLoop fuel input).1 = recs) := by
  induction fuel with
  | zero =>
    intro input
    by_cases h : input.isEmpty <;> simp [iterateLoop, decodeRecords, h]
  | succ fuel ih =>
    intro input
    cases input with
    | nil => simp [iterateLoop, decodeRecords]
    | cons tag rest =>
      by_cases h1 : tag % 256 = kTypeValue
      · rcases h2 : getLengthPrefixedSlice rest with _ | ⟨key, rest1⟩
        · simp [iterateLoop, decodeRecords, h1, h2]
        · rcases h3 : getLengthPrefixedSlice rest1 with _ | ⟨value, rest2⟩
          · simp [iterateLoop, decodeRecords, h1, h2, h3]
          · obtain ⟨ihl, ihr⟩ := ih rest2
            refine ⟨?_, ?_⟩
            · rcases h4 : decodeRecords fuel rest2 with _ | recs2 <;>
                simp [iterateLoop, decodeRecords, h1, h2, h3, ihl, h4]
            · intro recs hrecs
              rcases h4 : decodeRecords fuel rest2 with _ | recs2
              · rw [h4] at ihl
                simp [decodeRecords, h1, h2, h3, h4] at hrecs
              · simp [decodeRecords, h1, h2, h3, h4] at hrecs
                subst hrecs
                simp [iterateLoop, h1, h2, h3, ihr recs2 h4]
      · by_cases h0 : tag % 256 = kTypeDeletion
        · rcases h2 : getLengthPrefixedSlice rest with _ | ⟨key, rest1⟩
          · simp [iterateLoop, decodeRecords, h0, kTypeDeletion, kTypeValue, h2]
          · obtain ⟨ihl, ihr⟩ := ih rest1
            refine ⟨?_, ?_⟩
            · rcases h4 : decodeRecords fuel rest1 with _ | recs1 <;>
                simp [iterateLoop, decodeRecords, h0, kTypeDeletion,
                  kTypeValue, h2, ihl, h4]
            · intro recs hrecs
              rcases h4 : decodeRecords fuel rest1 with _ | recs1
              · simp [decodeRecords, h0, kTypeDeletion, kTypeValue, h2, h4]
                  at hrecs
              · simp [decodeRecords, h0, kTypeDeletion, kTypeValue, h2, h4]
                  at hrecs
                subst hrecs
                simp [iterateLoop, h0, kTypeDeletion, kTypeValue, h2,
                  ihr recs1 h4]
        · simp [iterateLoop, decodeRecords, h1, h0]

/-- Claim C7: `WriteBatch::Iterate(handler)` returns a Corruption status
exactly when the representation is malformed (shorter than the 12-byte
header, a key or value that fails to decode, an unknown record tag, or a
decoded record count differing from the stored count); otherwise it
invokes the handler once per record, in record order, and returns OK. -/
theorem writeBatchIterate_spec (rep : Bytes) :
    ((writeBatchIterate rep).1 = .corruption ↔ ¬ wellFormedBatch rep) ∧
    (wellFormedBatch rep →
      (writeBatchIterate rep).1 = .ok ∧
      decodeRecords rep.length (rep.drop kHeader) =
        some (writeBatchIterate rep).2) := by
  obtain ⟨hl, hr⟩ := iterateLoop_decodeRecords rep.length (rep.drop kHeader)
  by_cases hlen : rep.length < kHeader
  · have hnwf : ¬ wellFormedBatch rep := by
      intro hwf
      exact absurd hwf.1 (by omega)
    simp [writeBatchIterate, hlen, hnwf]
  · constructor
    · constructor
      · intro hcorr hwf
        obtain ⟨_, hcount⟩ := hwf
        simp only [writeBatchIterate, if_neg hlen] at hcorr
        rw [hl, hcount] at hcorr
        simp at hcorr
      · intro hnwf
        simp only [writeBatchIterate, if_neg hlen]
        rw [hl]
        match h4 : (decodeRecords rep.length (rep.drop kHeader)).map
            List.length with
        | none => simp
        | some n =>
          simp only
          split
          · next heq =>
            exfalso
            exact hnwf ⟨by omega, by rw [h4, heq]⟩
          · rfl
    · intro hwf
      obtain ⟨_, hcount⟩ := hwf
      match h4 : decodeRecords rep.length (rep.drop kHeader) with
      | none => rw [h4] at hcount; simp at hcount
      | some recs =>
        rw [h4] at hcount
        simp at hcount
        have hiter : (iterateLoop rep.length (rep.drop kHeader)).2 =
            some recs.length := by rw [hl, h4]; rfl
        constructor
        · simp only [writeBatchIterate, if_neg hlen]
          simp [hiter, hcount]
        · simp only [writeBatchIterate, if_neg hlen]
          simp [hiter, hr recs h4]

/-- Witness for C7 on a batch holding one put of ("a","v") with stored
count 1. -/
theorem writeBatchIterate_spec_witness :
    wellFormedBatch
      [0, 0, 0, 0, 0, 0, 0, 0, 1, 0, 0, 0, 1, 1, 97, 1, 118] ∧
    ((writeBatchIterate
        [0, 0, 0, 0, 0, 0, 0, 0, 1, 0, 0, 0, 1, 1, 97, 1, 118]).1 =
      .ok ∧
      decodeRecords
        (List.length [0, 0, 0, 0, 0, 0, 0, 0, 1, 0, 0, 0, 1, 1, 97, 1, 118])
        (List.drop kHeader
          [0, 0, 0, 0, 0, 0, 0, 0, 1, 0, 0, 0, 1, 1, 97, 1, 118]) =
        some (writeBatchIterate
          [0, 0, 0, 0, 0, 0, 0, 0, 1, 0, 0, 0, 1, 1, 97, 1, 118]).2) :=
  ⟨by decide,
    (writeBatchIterate_spec
        [0, 0, 0, 0, 0, 0, 0, 0, 1, 0, 0, 0, 1, 1, 97, 1, 118]).2
      (by decide)⟩

end Batch

/-! ## Comparator facts -/

theorem sliceCompare_eq_iff (a b : Bytes) : sliceCompare a b = .eq ↔ a = b := by
  induction a generalizing b with
  | nil => cases b <;> simp [sliceCompare]
  | cons x xs ih =>
    cases b with
    | nil => simp [sliceCompare]
    | cons y ys =>
      by_cases hxy : x < y
      · simp [sliceCompare, hxy]
        omega
      · by_cases hyx : y < x
        · simp [sliceCompare, hxy, hyx]
          omega
        · have hxy2 : x = y := by omega
          subst hxy2
          simp [sliceCompare, ih]

theorem sliceCompare_symm (a b : Bytes) :
    sliceCompare a b = .lt ↔ sliceCompare b a = .gt := by
  induction a generalizing b with
  | nil => cases b <;> simp [sliceCompare]
  | cons x xs ih =>
    cases b with
    | nil => simp [sliceCompare]
    | cons y ys =>
      by_cases hxy : x < y
      · simp [sliceCompare, hxy, Nat.lt_asymm hxy]
      · by_cases hyx : y < x
        · simp [sliceCompare, hxy, hyx]
        · simp [sliceCompare, hxy, hyx, ih]

theorem sliceCompare_trans (a b c : Bytes) (h1 : sliceCompare a b = .lt)
    (h2 : sliceCompare b c = .lt) : sliceCompare a c = .lt := by
  induction a generalizing b c with
  | nil =>
    cases b with
    | nil => exact absurd h1 (by simp [sliceCompare])
    | cons y ys =>
      cases c with
      | nil => exact absurd h2 (by simp [sliceCompare])
      | cons z zs => simp [sliceCompare]
  | cons x xs ih =>
    cases b with
    | nil => exact absurd h1 (by simp [sliceCompare])
    | cons y ys =>
      cases c with
      | nil => exact absurd h2 (by simp [sliceCompare])
      | cons z zs =>
        simp only [sliceCompare] at h1 h2 ⊢
        by_cases hxy : x < y
        · have hyz : y ≤ z := by
            by_cases hc1 : y < z
            · omega
            · by_cases hc2 : z < y
              · rw [if_neg hc1, if_pos hc2] at h2
                exact absurd h2 (by decide)
              · omega
          have hxz : x < z := by omega
          simp [hxz]
        · by_cases hyx : y < x
          · rw [if_neg hxy, if_pos hyx] at h1
            exact absurd h1 (by decide)
          · have hxey : x = y := by omega
            subst hxey
            rw [if_neg hxy, if_neg hyx] at h1
            by_cases hxz : x < z
            · simp [hxz]
            · by_cases hzx : z < x
              · rw [if_neg hxz, if_pos hzx] at h2
                exact absurd h2 (by decide)
              · rw [if_neg hxz, if_neg hzx] at h2 ⊢
                exact ih ys zs h1 h2

/-- The properties of an injected comparator that the skiplist proofs
rely on (a strict total preorder presented through `Ordering`). -/
structure CmpFacts {α : Type} (cmp : α → α → Ordering) : Prop where
  symm : ∀ a b, cmp a b = .lt ↔ cmp b a = .gt
  trans : ∀ a b c, cmp a b = .lt → cmp b c = .lt → cmp a c = .lt
  eq_subst : ∀ a b c, cmp a b = .eq → cmp a c = cmp b c

theorem sliceCompare_facts : CmpFacts sliceCompare := by
  refine ⟨sliceCompare_symm, sliceCompare_trans, ?_⟩
  intro a b c h
  rw [(sliceCompare_eq_iff a b).1 h]

theorem CmpFacts.eq_symm {α : Type} {cmp : α → α → Ordering}
    (hf : CmpFacts cmp) {a b : α} (h : cmp a b = .eq) : cmp b a = .eq := by
  rcases h2 : cmp b a with _ | _ | _
  · have h3 := (hf.symm b a).1 h2
    rw [h] at h3
    exact Ordering.noConfusion h3
  · rfl
  · have h3 := (hf.symm a b).2 h2
    rw [h] at h3
    exact Ordering.noConfusion h3

theorem CmpFacts.not_lt_of_lt {α : Type} {cmp : α → α → Ordering}
    (hf : CmpFacts cmp) {a b : α} (h : cmp a b = .lt) : cmp b a ≠ .lt := by
  intro h2
  have h3 := (hf.symm b a).1 h2
  rw [h] at h3
  exact Ordering.noConfusion h3

/-! ## Skiplist (`SkipList<Key, Comparator>`) -/

namespace SkipL

/-- A skiplist node: its key and the randomly drawn height. A node of
height `h` is linked into the chains of levels `0 .. h-1`. -/
structure Node (α : Type) where
  key : α
  height : Nat
deriving DecidableEq

/-- The skiplist state as observed through the level-0 chain: the nodes
after the head in level-0 (`next_[0]`) order, plus `max_height_`. The
higher-level chains are determined by the heights: the level-`l` chain
consists of the nodes with `l < height`, in the same order. -/
structure SkipState (α : Type) where
  nodes : List (Node α)
  maxHeight : Nat
deriving DecidableEq

/-- A fresh skiplist: no nodes, `max_height_ = 1`. -/
def SkipState.empty (α : Type) : SkipState α := { nodes := [], maxHeight := 1 }

/-- `x->Next(l)` as seen from a position whose remaining level-0 chain is
`ns`: the first node of height `> l`, together with the chain past it. -/
def nextAtLevel {α : Type} (l : Nat) : List (Node α) → Option (Node α × List (Node α))
  | [] => none
  | n :: rest => if l < n.height then some (n, rest) else nextAtLevel l rest

/-- The advance step shared by `FindGreaterOrEqual` and `FindLessThan`:
with current node `cur` (`none` = the head; otherwise the suffix headed by
the current node) and `after` the level-0 chain past it, advance along
level `l` while the next level-`l` node's key is before `key`
(`KeyIsAfterNode`); stop when it is at or after `key`, or absent. Fuel
bounds the advance count; callers pass the chain length, which always
suffices. -/
def searchLoop {α : Type} (cmp : α → α → Ordering) (key : α) (l : Nat) :
    Nat → Option (List (Node α)) → List (Node α) →
    Option (List (Node α)) × List (Node α)
  | 0, cur, after => (cur, after)
  | fuel + 1, cur, after =>
    match nextAtLevel l after with
    | some (n, rest) =>
      if cmp n.key key = .lt then
        searchLoop cmp key l fuel (some (n :: rest)) rest
      else (cur, after)
    | none => (cur, after)

/-- The level-descending drive shared by `FindGreaterOrEqual` and
`FindLessThan`: run the advance loop at each level from `l` down to 0. -/
def searchFrom {α : Type} (cmp : α → α → Ordering) (key : α) :
    Nat → Option (List (Node α)) × List (Node α) →
    Option (List (Node α)) × List (Node α)
  | 0, st => searchLoop cmp key 0 st.2.length st.1 st.2
  | l + 1, st =>
    searchFrom cmp key l (searchLoop cmp key (l + 1) st.2.length st.1 st.2)

/-- `SkipList::FindGreaterOrEqual(key)`: descend from
`GetMaxHeight() - 1`; the result is `next` at level 0 — the suffix headed
by the earliest node at or after `key` (`[]` = NULL). -/
def findGreaterOrEqual {α : Type} (cmp : α → α → Ordering) (st : SkipState α)
    (key : α) : List (Node α) :=
  match nextAtLevel 0 (searchFrom cmp key (st.maxHeight - 1) (none, st.nodes)).2 with
  | some (n, rest) => n :: rest
  | none => []

/-- `SkipList::FindLessThan(key)`: same descent; the result is the final
current node — the suffix headed by the latest node with key before `key`
(`none` = the head). -/
def findLessThan {α : Type} (cmp : α → α → Ordering) (st : SkipState α)
    (key : α) : Option (List (Node α)) :=
  (searchFrom cmp key (st.maxHeight - 1) (none, st.nodes)).1

/-- `SkipList::Insert(key)` with the drawn `height`: splice the new node
after every node with a key before `key` (the level-0 effect of the
per-level `prev` splice; the higher-level links follow from the heights),
and raise `max_height_` when exceeded. -/
def insert {α : Type} (cmp : α → α → Ordering) (st : SkipState α) (key : α)
    (height : Nat) : SkipState α :=
  { nodes := st.nodes.takeWhile (fun n => cmp n.key key = .lt) ++
      ⟨key, height⟩ :: st.nodes.dropWhile (fun n => cmp n.key key = .lt),
    maxHeight := max st.maxHeight height }

/-- Insert a batch of keys with their drawn heights, in order. -/
def insertAll {α : Type} (cmp : α → α → Ordering)
    (ops : List (α × Nat)) : SkipState α :=
  ops.foldl (fun s kh => insert cmp s kh.1 kh.2) (SkipState.empty α)

/-- `Iterator::Next`: follow `next_[0]` (iterators are suffixes of the
level-0 chain; `[]` is the invalid iterator). -/
def iterNext {α : Type} (it : List (Node α)) : List (Node α) := it.tail

/-- `Iterator::SeekToFirst`: `head_->Next(0)`. -/
def iterSeekToFirst {α : Type} (st : SkipState α) : List (Node α) := st.nodes

/-- `Iterator::Seek(target)`. -/
def iterSeek {α : Type} (cmp : α → α → Ordering) (st : SkipState α)
    (target : α) : List (Node α) :=
  findGreaterOrEqual cmp st target

/-- `Iterator::Prev`: re-seek to the latest node before the current key;
at the head the iterator becomes invalid (NULL). -/
def iterPrev {α : Type} (cmp : α → α → Ordering) (st : SkipState α)
    (it : List (Node α)) : List (Node α) :=
  match it with
  | [] => []
  | n :: _ => (findLessThan cmp st n.key).getD []

end SkipL

namespace SkipL

theorem nextAtLevel_split {α : Type} {l : Nat} :
    ∀ {ns : List (Node α)} {n : Node α} {rest : List (Node α)},
    nextAtLevel l ns = some (n, rest) →
    ∃ pre, ns = pre ++ n :: rest ∧ (∀ m ∈ pre, m.height ≤ l) ∧ l < n.height := by
  intro ns
  induction ns with
  | nil => intro n rest h; simp [nextAtLevel] at h
  | cons m ms ih =>
    intro n rest h
    by_cases hm : l < m.height
    · simp only [nextAtLevel, if_pos hm, Option.some.injEq, Prod.mk.injEq] at h
      obtain ⟨h1, h2⟩ := h
      subst h1
      subst h2
      exact ⟨[], rfl, by simp, hm⟩
    · simp only [nextAtLevel, if_neg hm] at h
      obtain ⟨pre, hpre, hh, hn⟩ := ih h
      refine ⟨m :: pre, ?_, ?_, hn⟩
      · simp [hpre]
      · intro x hx
        rcases List.mem_cons.1 hx with h3 | h3
        · subst h3; omega
        · exact hh x h3

theorem nextAtLevel_zero {α : Type} {ns : List (Node α)}
    (hh : ∀ m ∈ ns, 1 ≤ m.height) :
    nextAtLevel 0 ns =
      (match ns with | [] => none | n :: rest => some (n, rest)) := by
  cases ns with
  | nil => rfl
  | cons n rest =>
    have h1 := hh n (by simp)
    simp [nextAtLevel, show 0 < n.height by omega]

/-- The invariant of the level-descending search: either nothing has been
passed (current node is still the head), or the nodes passed so far form a
prefix of the chain, every one of them with a key before the target, and
the current node heads the remaining suffix. -/
def SearchInv {α : Type} (cmp : α → α → Ordering) (key : α)
    (nodes : List (Node α)) (st : Option (List (Node α)) × List (Node α)) :
    Prop :=
  (st.1 = none ∧ st.2 = nodes) ∨
  (∃ done c, nodes = done ++ c :: st.2 ∧ st.1 = some (c :: st.2) ∧
    (∀ m ∈ done, cmp m.key key = .lt) ∧ cmp c.key key = .lt)

theorem pairwise_prefix_rel {α : Type} {R : Node α → Node α → Prop}
    {nodes D rest : List (Node α)} {n : Node α}
    (hp : nodes.Pairwise R) (heq : nodes = D ++ n :: rest) :
    ∀ m ∈ D, R m n := by
  subst heq
  intro m hm
  exact (List.pairwise_append.1 hp).2.2 m hm n (by simp)

theorem searchLoop_inv {α : Type} {cmp : α → α → Ordering} {key : α}
    (hf : CmpFacts cmp) {nodes : List (Node α)}
    (hsorted : nodes.Pairwise (fun a b => cmp a.key b.key = .lt)) :
    ∀ (fuel l : Nat) (cur : Option (List (Node α))) (after : List (Node α)),
    SearchInv cmp key nodes (cur, after) →
    SearchInv cmp key nodes (searchLoop cmp key l fuel cur after) := by
  intro fuel
  induction fuel with
  | zero => intro l cur after h; exact h
  | succ fuel ih =>
    intro l cur after h
    simp only [searchLoop]
    rcases hnext : nextAtLevel l after with _ | ⟨n, rest⟩
    · exact h
    · simp only
      by_cases hlt : cmp n.key key = .lt
      · simp only [if_pos hlt]
        apply ih
        obtain ⟨pre, hpre, _, _⟩ := nextAtLevel_split hnext
        rcases h with ⟨_, ha⟩ | ⟨done, c, hnodes, _, hdone, hcl⟩
        · simp only at ha
          right
          refine ⟨pre, n, ?_, rfl, ?_, hlt⟩
          · show nodes = pre ++ n :: rest
            rw [← ha]
            exact hpre
          · intro m hm
            have heq2 : nodes = pre ++ n :: rest := by
              rw [← ha]
              exact hpre
            have hrel : cmp m.key n.key = .lt :=
              @pairwise_prefix_rel α (fun a b => cmp a.key b.key = Ordering.lt)
                nodes pre rest n hsorted heq2 m hm
            exact hf.trans _ _ _ hrel hlt
        · simp only at hnodes
          right
          refine ⟨done ++ c :: pre, n, ?_, rfl, ?_, hlt⟩
          · show nodes = (done ++ c :: pre) ++ n :: rest
            rw [hnodes, hpre]
            simp
          · intro m hm
            have heq2 : nodes = (done ++ c :: pre) ++ n :: rest := by
              rw [hnodes, hpre]
              simp
            have hrel : cmp m.key n.key = .lt :=
              @pairwise_prefix_rel α (fun a b => cmp a.key b.key = Ordering.lt)
                nodes (done ++ c :: pre) rest n hsorted heq2 m hm
            exact hf.trans _ _ _ hrel hlt
      · simp only [if_neg hlt]
        exact h

theorem searchLoop_stop {α : Type} {cmp : α → α → Ordering} {key : α} :
    ∀ (fuel l : Nat) (cur : Option (List (Node α))) (after : List (Node α)),
    after.length ≤ fuel →
    ∀ (n : Node α) (rest : List (Node α)),
    nextAtLevel l (searchLoop cmp key l fuel cur after).2 = some (n, rest) →
    cmp n.key key ≠ .lt := by
  intro fuel
  induction fuel with
  | zero =>
    intro l cur after hlen n rest hnext
    have h0 : after = [] := by
      cases after with
      | nil => rfl
      | cons a as => simp at hlen
    subst h0
    simp [searchLoop, nextAtLevel] at hnext
  | succ fuel ih =>
    intro l cur after hlen n rest hnext
    simp only [searchLoop] at hnext
    rcases h2 : nextAtLevel l after with _ | ⟨m, mrest⟩
    · rw [h2] at hnext
      simp only at hnext
      rw [hnext] at h2
      simp at h2
    · rw [h2] at hnext
      simp only at hnext
      by_cases hlt : cmp m.key key = .lt
      · rw [if_pos hlt] at hnext
        obtain ⟨pre, hpre, _, _⟩ := nextAtLevel_split h2
        have hlen2 : mrest.length ≤ fuel := by
          have h3 := congrArg List.length hpre
          simp at h3
          omega
        exact ih l (some (m :: mrest)) mrest hlen2 n rest hnext
      · rw [if_neg hlt] at hnext
        simp only at hnext
        rw [h2] at hnext
        simp only [Option.some.injEq, Prod.mk.injEq] at hnext
        obtain ⟨h5, _⟩ := hnext
        subst h5
        exact hlt

theorem searchFrom_spec {α : Type} {cmp : α → α → Ordering} {key : α}
    (hf : CmpFacts cmp) {nodes : List (Node α)}
    (hsorted : nodes.Pairwise (fun a b => cmp a.key b.key = .lt)) :
    ∀ (l : Nat) (st : Option (List (Node α)) × List (Node α)),
    SearchInv cmp key nodes st →
    SearchInv cmp key nodes (searchFrom cmp key l st) ∧
    (∀ (n : Node α) (rest : List (Node α)),
      nextAtLevel 0 (searchFrom cmp key l st).2 = some (n, rest) →
      cmp n.key key ≠ .lt) := by
  intro l
  induction l with
  | zero =>
    intro st hinv
    refine ⟨?_, ?_⟩
    · exact searchLoop_inv hf hsorted st.2.length 0 st.1 st.2 hinv
    · exact searchLoop_stop st.2.length 0 st.1 st.2 (Nat.le_refl _)
  | succ l ih =>
    intro st hinv
    exact ih _ (searchLoop_inv hf hsorted st.2.length (l + 1) st.1 st.2 hinv)

end SkipL

namespace SkipL

theorem nextAtLevel_zero_cons {α : Type} {n : Node α} {rest : List (Node α)}
    (h1 : 1 ≤ n.height) :
    nextAtLevel 0 (n :: rest) = some (n, rest) := by
  simp [nextAtLevel, show 0 < n.height by omega]

theorem searchFrom_decomp {α : Type} {cmp : α → α → Ordering} {key : α}
    (hf : CmpFacts cmp) (st : SkipState α)
    (hsorted : st.nodes.Pairwise (fun a b => cmp a.key b.key = .lt))
    (hh : ∀ n ∈ st.nodes, 1 ≤ n.height) :
    ∃ D, st.nodes = D ++
        (searchFrom cmp key (st.maxHeight - 1) (none, st.nodes)).2 ∧
      (∀ m ∈ D, cmp m.key key = .lt) ∧
      ((searchFrom cmp key (st.maxHeight - 1) (none, st.nodes)).2 = [] ∨
        (∃ n2 rest2,
          (searchFrom cmp key (st.maxHeight - 1) (none, st.nodes)).2 =
            n2 :: rest2 ∧ ¬ cmp n2.key key = .lt)) ∧
      ((D = [] ∧
        (searchFrom cmp key (st.maxHeight - 1) (none, st.nodes)).1 = none) ∨
       (∃ D2 c, D = D2 ++ [c] ∧
        (searchFrom cmp key (st.maxHeight - 1) (none, st.nodes)).1 =
          some (c ::
            (searchFrom cmp key (st.maxHeight - 1) (none, st.nodes)).2))) := by
  obtain ⟨hinv, hstop⟩ :=
    searchFrom_spec hf hsorted (st.maxHeight - 1) (none, st.nodes)
      (Or.inl ⟨rfl, rfl⟩)
  set out := searchFrom cmp key (st.maxHeight - 1) (none, st.nodes) with hout
  have hD : ∃ D, st.nodes = D ++ out.2 ∧ (∀ m ∈ D, cmp m.key key = .lt) ∧
      ((D = [] ∧ out.1 = none) ∨
       (∃ D2 c, D = D2 ++ [c] ∧ out.1 = some (c :: out.2))) := by
    rcases hinv with ⟨h1, h2⟩ | ⟨done, c, hnodes, hcur, hdone, hcl⟩
    · refine ⟨[], by rw [h2]; rfl, by simp, Or.inl ⟨rfl, h1⟩⟩
    · refine ⟨done ++ [c], by rw [hnodes]; simp, ?_, Or.inr ⟨done, c, rfl, hcur⟩⟩
      intro m hm
      rcases List.mem_append.1 hm with h | h
      · exact hdone m h
      · simp only [List.mem_singleton] at h
        subst h
        exact hcl
  obtain ⟨D, hD1, hD2, hD3⟩ := hD
  refine ⟨D, hD1, hD2, ?_, hD3⟩
  cases ho : out.2 with
  | nil => exact Or.inl rfl
  | cons n2 rest2 =>
    right
    refine ⟨n2, rest2, rfl, ?_⟩
    apply hstop n2 rest2
    rw [ho]
    have hmem : n2 ∈ st.nodes := by
      rw [hD1, ho]
      exact List.mem_append_right _ (by simp)
    exact nextAtLevel_zero_cons (hh n2 hmem)

theorem findGreaterOrEqual_eq {α : Type} {cmp : α → α → Ordering}
    (hf : CmpFacts cmp) (st : SkipState α) (key : α)
    (hsorted : st.nodes.Pairwise (fun a b => cmp a.key b.key = .lt))
    (hh : ∀ n ∈ st.nodes, 1 ≤ n.height) :
    findGreaterOrEqual cmp st key =
      st.nodes.dropWhile (fun n => cmp n.key key = .lt) := by
  obtain ⟨D, hD, hDlt, hstop2, _⟩ := @searchFrom_decomp _ _ key hf st hsorted hh
  set out := searchFrom cmp key (st.maxHeight - 1) (none, st.nodes) with hout
  have hdrop : st.nodes.dropWhile (fun n => cmp n.key key = .lt) = out.2 := by
    rw [hD, List.dropWhile_append_of_pos ?_]
    · rcases hstop2 with h | ⟨n2, rest2, heq, hne⟩
      · rw [h]; rfl
      · rw [heq, List.dropWhile_cons_of_neg]
        simp [hne]
    · intro a ha
      exact decide_eq_true (hDlt a ha)
  unfold findGreaterOrEqual
  rw [← hout, hdrop]
  rcases hstop2 with h | ⟨n2, rest2, heq, _⟩
  · rw [h]
    rfl
  · have hmem : n2 ∈ st.nodes := by
      rw [hD, heq]
      exact List.mem_append_right _ (by simp)
    rw [heq, nextAtLevel_zero_cons (hh n2 hmem)]

theorem findLessThan_eq {α : Type} {cmp : α → α → Ordering}
    (hf : CmpFacts cmp) (st : SkipState α) (key : α)
    (hsorted : st.nodes.Pairwise (fun a b => cmp a.key b.key = .lt))
    (hh : ∀ n ∈ st.nodes, 1 ≤ n.height) :
    findLessThan cmp st key =
      (if (st.nodes.takeWhile (fun n => cmp n.key key = .lt)).length = 0
       then none
       else some (st.nodes.drop
         ((st.nodes.takeWhile (fun n => cmp n.key key = .lt)).length - 1))) := by
  obtain ⟨D, hD, hDlt, hstop2, hcur⟩ := @searchFrom_decomp _ _ key hf st hsorted hh
  set out := searchFrom cmp key (st.maxHeight - 1) (none, st.nodes) with hout
  have htake : st.nodes.takeWhile (fun n => cmp n.key key = .lt) = D := by
    rw [hD, List.takeWhile_append_of_pos ?_]
    · rcases hstop2 with h | ⟨n2, rest2, heq, hne⟩
      · rw [h]
        simp
      · rw [heq, List.takeWhile_cons_of_neg]
        · simp
        · simp [hne]
    · intro a ha
      exact decide_eq_true (hDlt a ha)
  unfold findLessThan
  rw [← hout, htake]
  rcases hcur with ⟨hDnil, hnone⟩ | ⟨D2, c2, hDeq, hsome⟩
  · rw [hDnil, hnone]
    simp
  · rw [hDeq, hsome]
    have hlen : ¬ ((D2 ++ [c2] : List (Node α)).length = 0) := by simp
    rw [if_neg hlen]
    have hdropeq : st.nodes.drop ((D2 ++ [c2] : List (Node α)).length - 1) =
        c2 :: out.2 := by
      rw [hD, hDeq]
      have h1 : ((D2 ++ [c2] : List (Node α)).length - 1) = D2.length := by
        simp
      rw [h1, List.append_assoc]
      simp only [List.singleton_append]
      exact List.drop_left D2 (c2 :: out.2)
    rw [hdropeq]

end SkipL

namespace SkipL

theorem insert_nodes_sorted {α : Type} {cmp : α → α → Ordering}
    (hf : CmpFacts cmp) (key : α) (h : Nat) :
    ∀ ns : List (Node α), ns.Pairwise (fun a b => cmp a.key b.key = .lt) →
    (∀ n ∈ ns, cmp n.key key ≠ .eq) →
    (ns.takeWhile (fun n => cmp n.key key = .lt) ++
      ⟨key, h⟩ :: ns.dropWhile (fun n => cmp n.key key = .lt)).Pairwise
      (fun a b => cmp a.key b.key = .lt) := by
  intro ns
  induction ns with
  | nil =>
    intro _ _
    simp
  | cons n ns ih =>
    intro hsorted hne
    rcases List.pairwise_cons.1 hsorted with ⟨hn, htail⟩
    by_cases hlt : cmp n.key key = .lt
    · have htw : (n :: ns).takeWhile (fun m => cmp m.key key = .lt) =
          n :: ns.takeWhile (fun m => cmp m.key key = .lt) := by
        rw [List.takeWhile_cons]
        simp [hlt]
      have hdw : (n :: ns).dropWhile (fun m => cmp m.key key = .lt) =
          ns.dropWhile (fun m => cmp m.key key = .lt) := by
        rw [List.dropWhile_cons]
        simp [hlt]
      rw [htw, hdw, List.cons_append, List.pairwise_cons]
      refine ⟨?_, ih htail (fun m hm => hne m (List.mem_cons_of_mem _ hm))⟩
      intro m hm
      rcases List.mem_append.1 hm with h1 | h1
      · exact hn m (List.takeWhile_sublist _ |>.subset h1)
      · rcases List.mem_cons.1 h1 with h2 | h2
        · subst h2
          exact hlt
        · exact hn m (List.dropWhile_sublist _ |>.subset h2)
    · have htw : (n :: ns).takeWhile (fun m => cmp m.key key = .lt) = [] := by
        rw [List.takeWhile_cons]
        simp [hlt]
      have hdw : (n :: ns).dropWhile (fun m => cmp m.key key = .lt) =
          n :: ns := by
        rw [List.dropWhile_cons]
        simp [hlt]
      rw [htw, hdw, List.nil_append, List.pairwise_cons]
      have hgt : cmp n.key key = .gt := by
        rcases h3 : cmp n.key key with _ | _ | _
        · exact absurd h3 hlt
        · exact absurd h3 (hne n (by simp))
        · rfl
      have hkln : cmp key n.key = .lt := (hf.symm key n.key).2 hgt
      refine ⟨?_, hsorted⟩
      intro m hm
      rcases List.mem_cons.1 hm with h2 | h2
      · subst h2
        exact hkln
      · exact hf.trans _ _ _ hkln (hn m h2)

theorem insert_nodes_perm {α : Type} (cmp : α → α → Ordering)
    (st : SkipState α) (key : α) (h : Nat) :
    (insert cmp st key h).nodes.Perm (⟨key, h⟩ :: st.nodes) := by
  unfold insert
  refine List.perm_middle.trans ?_
  rw [List.takeWhile_append_dropWhile]

theorem foldInsert_spec {α : Type} {cmp : α → α → Ordering}
    (hf : CmpFacts cmp) :
    ∀ (ops : List (α × Nat)) (st : SkipState α),
    st.nodes.Pairwise (fun a b => cmp a.key b.key = .lt) →
    (∀ n ∈ st.nodes, 1 ≤ n.height) →
    ops.Pairwise (fun a b => cmp a.1 b.1 ≠ .eq) →
    (∀ n ∈ st.nodes, ∀ op ∈ ops, cmp n.key op.1 ≠ .eq) →
    (∀ op ∈ ops, 1 ≤ op.2) →
    (ops.foldl (fun s kh => insert cmp s kh.1 kh.2) st).nodes.Pairwise
      (fun a b => cmp a.key b.key = .lt) ∧
    (ops.foldl (fun s kh => insert cmp s kh.1 kh.2) st).nodes.Perm
      ((ops.map fun op => (⟨op.1, op.2⟩ : Node α)) ++ st.nodes) ∧
    (∀ n ∈ (ops.foldl (fun s kh => insert cmp s kh.1 kh.2) st).nodes,
      1 ≤ n.height) := by
  intro ops
  induction ops with
  | nil =>
    intro st hs hh _ _ _
    exact ⟨hs, by simp, hh⟩
  | cons op ops ih =>
    intro st hs hh hdist hcross hh2
    rcases List.pairwise_cons.1 hdist with ⟨hop, hdist2⟩
    have hne : ∀ n ∈ st.nodes, cmp n.key op.1 ≠ .eq := by
      intro n hn
      exact hcross n hn op (by simp)
    have hperm1 := insert_nodes_perm cmp st op.1 op.2
    have hs1 : (insert cmp st op.1 op.2).nodes.Pairwise
        (fun a b => cmp a.key b.key = .lt) :=
      insert_nodes_sorted hf op.1 op.2 st.nodes hs hne
    have hh1 : ∀ n ∈ (insert cmp st op.1 op.2).nodes, 1 ≤ n.height := by
      intro n hn
      rcases List.mem_cons.1 (hperm1.subset hn) with h2 | h2
      · subst h2
        exact hh2 op (by simp)
      · exact hh n h2
    have hcross1 : ∀ n ∈ (insert cmp st op.1 op.2).nodes,
        ∀ op2 ∈ ops, cmp n.key op2.1 ≠ .eq := by
      intro n hn op2 hop2
      rcases List.mem_cons.1 (hperm1.subset hn) with h2 | h2
      · subst h2
        exact hop op2 hop2
      · exact hcross n h2 op2 (List.mem_cons_of_mem _ hop2)
    obtain ⟨c1, c2, c3⟩ := ih (insert cmp st op.1 op.2) hs1 hh1 hdist2 hcross1
      (fun op2 hop2 => hh2 op2 (List.mem_cons_of_mem _ hop2))
    refine ⟨c1, ?_, c3⟩
    simp only [List.foldl_cons] at *
    refine c2.trans ?_
    refine (List.Perm.append_left _ hperm1).trans ?_
    simp only [List.map_cons, List.cons_append]
    exact List.perm_middle

end SkipL

/-- Claim C8: for pairwise-distinct keys inserted into a skiplist (with
arbitrary positive random heights), iterating from `SeekToFirst` via
`Next` visits exactly the inserted keys, each once, in ascending
comparator order; `Seek(target)` positions the iterator on the first key
at or after `target`; `Prev` moves to the greatest key strictly less than
the current key; in particular, after inserting "b","d","f","a","c",
iteration yields "a","b","c","d","f", `seek("c")` lands on "c",
`seek("cc")` lands on "d", and `Prev` from "d" lands on "c". -/
theorem skiplist_spec (ops : List (Bytes × Nat))
    (hdist : ops.Pairwise (fun a b => sliceCompare a.1 b.1 ≠ .eq))
    (hh : ∀ op ∈ ops, 1 ≤ op.2) :
    ((SkipL.insertAll sliceCompare ops).nodes.Pairwise
        (fun a b => sliceCompare a.key b.key = .lt) ∧
      (SkipL.insertAll sliceCompare ops).nodes.Perm
        (ops.map fun op => (⟨op.1, op.2⟩ : SkipL.Node Bytes))) ∧
    (∀ target, SkipL.iterSeek sliceCompare (SkipL.insertAll sliceCompare ops)
        target =
      (SkipL.insertAll sliceCompare ops).nodes.dropWhile
        (fun n => sliceCompare n.key target = .lt)) ∧
    (∀ target,
      SkipL.findLessThan sliceCompare (SkipL.insertAll sliceCompare ops)
          target =
        (if ((SkipL.insertAll sliceCompare ops).nodes.takeWhile
              (fun n => sliceCompare n.key target = .lt)).length = 0
         then none
         else some ((SkipL.insertAll sliceCompare ops).nodes.drop
           (((SkipL.insertAll sliceCompare ops).nodes.takeWhile
              (fun n => sliceCompare n.key target = .lt)).length - 1)))) ∧
    ((SkipL.insertAll sliceCompare
        [([98], 1), ([100], 2), ([102], 1), ([97], 3), ([99], 1)]).nodes.map
          SkipL.Node.key = [[97], [98], [99], [100], [102]] ∧
      (SkipL.iterSeek sliceCompare
        (SkipL.insertAll sliceCompare
          [([98], 1), ([100], 2), ([102], 1), ([97], 3), ([99], 1)])
        [99]).map SkipL.Node.key = [[99], [100], [102]] ∧
      (SkipL.iterSeek sliceCompare
        (SkipL.insertAll sliceCompare
          [([98], 1), ([100], 2), ([102], 1), ([97], 3), ([99], 1)])
        [99, 99]).map SkipL.Node.key = [[100], [102]] ∧
      (SkipL.iterPrev sliceCompare
        (SkipL.insertAll sliceCompare
          [([98], 1), ([100], 2), ([102], 1), ([97], 3), ([99], 1)])
        (SkipL.iterSeek sliceCompare
          (SkipL.insertAll sliceCompare
            [([98], 1), ([100], 2), ([102], 1), ([97], 3), ([99], 1)])
          [100])).map SkipL.Node.key = [[99], [100], [102]]) := by
  obtain ⟨hs, hperm, hhn⟩ := SkipL.foldInsert_spec sliceCompare_facts ops
    (SkipL.SkipState.empty Bytes) (by simp [SkipL.SkipState.empty])
    (by simp [SkipL.SkipState.empty]) hdist
    (by simp [SkipL.SkipState.empty]) hh
  refine ⟨⟨hs, by simpa [SkipL.insertAll, SkipL.SkipState.empty] using hperm⟩, ?_, ?_, by decide, by decide, by decide,
    by decide⟩
  · intro target
    exact SkipL.findGreaterOrEqual_eq sliceCompare_facts _ target hs hhn
  · intro target
    exact SkipL.findLessThan_eq sliceCompare_facts _ target hs hhn

/-- Witness for C8 at the spec scenario (keys "b","d","f","a","c"). -/
theorem skiplist_spec_witness :
    (([([98], 1), ([100], 2), ([102], 1), ([97], 3),
        ([99], 1)] : List (Bytes × Nat)).Pairwise
        (fun a b => sliceCompare a.1 b.1 ≠ .eq) ∧
      (∀ op ∈ ([([98], 1), ([100], 2), ([102], 1), ([97], 3),
        ([99], 1)] : List (Bytes × Nat)), 1 ≤ op.2)) ∧
    (SkipL.insertAll sliceCompare
      [([98], 1), ([100], 2), ([102], 1), ([97], 3), ([99], 1)]).nodes.map
        SkipL.Node.key = [[97], [98], [99], [100], [102]] :=
  ⟨⟨by decide, by decide⟩,
    (skiplist_spec [([98], 1), ([100], 2), ([102], 1), ([97], 3), ([99], 1)]
      (by decide) (by decide)).2.2.2.1⟩

/-! ## Memtable (`MemTable::Add` / `MemTable::Get`) -/

namespace Mem

/-- A decoded memtable entry: the fields packed by `MemTable::Add` as
`varint32(klen+8) ‖ user_key ‖ fixed64((seq << 8) | type) ‖
varint32(vlen) ‖ value`. The comparator strips the length prefixes before
comparing, so entries are modelled by their fields. -/
structure MemEntry where
  userKey : Bytes
  seq : Nat
  vtype : Nat
  value : Bytes
deriving DecidableEq

/-- The packed 64-bit tag `(sequence << 8) | type` (spec §3). -/
def MemEntry.tag (e : MemEntry) : Nat := e.seq * 256 + e.vtype

/-- Modelled from the spec: `InternalKeyComparator` (`dbformat.cc` is not
in the excerpt): ascending by user key under the (bytewise) user
comparator; for equal user keys, descending by the packed tag
(spec §3). -/
def memCmp (a b : MemEntry) : Ordering :=
  match sliceCompare a.userKey b.userKey with
  | .eq =>
    if b.tag < a.tag then .lt
    else if a.tag < b.tag then .gt
    else .eq
  | o => o

/-- `MemTable::Add(seq, type, key, value)`: encode the entry and insert it
into the skiplist (`height` stands for the skiplist's random height
draw). -/
def memAdd (st : SkipL.SkipState MemEntry) (seq vtype : Nat)
    (key value : Bytes) (height : Nat) : SkipL.SkipState MemEntry :=
  SkipL.insert memCmp st ⟨key, seq, vtype, value⟩ height

/-- Modelled from the spec: `kValueTypeForSeek = kTypeValue`
(spec §4.11). -/
def kValueTypeForSeek : Nat := kTypeValue

/-- The `LookupKey` for user key `k` at snapshot sequence `s`: internal
key `(k, (s << 8) | kValueTypeForSeek)`; the value payload is absent and
never read by the comparator. -/
def lookupEntry (k : Bytes) (s : Nat) : MemEntry :=
  ⟨k, s, kValueTypeForSeek, []⟩

/-- Outcome of `MemTable::Get`: `found v` is `true` with `*value = v`,
`notFoundTombstone` is `true` with a NotFound status, `miss` is
`false`. -/
inductive GetResult
  | found (value : Bytes)
  | notFoundTombstone
  | miss
deriving DecidableEq

/-- `MemTable::Get(key)`: seek the skiplist to the lookup key; when the
entry found shares the user key, a `kTypeValue` tag yields its value and a
`kTypeDeletion` tag yields NotFound; any other case (no entry, different
user key, unknown tag) reports a miss. -/
def memGet (st : SkipL.SkipState MemEntry) (k : Bytes) (s : Nat) :
    GetResult :=
  match SkipL.findGreaterOrEqual memCmp st (lookupEntry k s) with
  | [] => .miss
  | e :: _ =>
    if sliceCompare e.key.userKey k = .eq then
      if e.key.tag % 256 = kTypeValue then .found e.key.value
      else if e.key.tag % 256 = kTypeDeletion then .notFoundTombstone
      else .miss
    else .miss

/-- Fold `MemTable::Add` over a list of entries with their height
draws. -/
def memInsertAll (ops : List (MemEntry × Nat)) : SkipL.SkipState MemEntry :=
  ops.foldl
    (fun s e => memAdd s e.1.seq e.1.vtype e.1.userKey e.1.value e.2)
    (SkipL.SkipState.empty MemEntry)

theorem memCmp_of_lt {a b : MemEntry}
    (h : sliceCompare a.userKey b.userKey = .lt) : memCmp a b = .lt := by
  unfold memCmp
  rw [h]

theorem memCmp_of_gt {a b : MemEntry}
    (h : sliceCompare a.userKey b.userKey = .gt) : memCmp a b = .gt := by
  unfold memCmp
  rw [h]

theorem memCmp_of_eq {a b : MemEntry}
    (h : sliceCompare a.userKey b.userKey = .eq) :
    memCmp a b =
      (if b.tag < a.tag then .lt
       else if a.tag < b.tag then .gt else .eq) := by
  unfold memCmp
  rw [h]

theorem memCmp_cases (a b : MemEntry) :
    (sliceCompare a.userKey b.userKey = .lt ∧ memCmp a b = .lt) ∨
    (a.userKey = b.userKey ∧
      memCmp a b =
        (if b.tag < a.tag then .lt
         else if a.tag < b.tag then .gt else .eq)) ∨
    (sliceCompare a.userKey b.userKey = .gt ∧ memCmp a b = .gt) := by
  rcases h : sliceCompare a.userKey b.userKey with _ | _ | _
  · exact Or.inl ⟨rfl, memCmp_of_lt h⟩
  · exact Or.inr (Or.inl ⟨(sliceCompare_eq_iff _ _).1 h, memCmp_of_eq h⟩)
  · exact Or.inr (Or.inr ⟨rfl, memCmp_of_gt h⟩)

theorem memCmp_eq_user_tag {a b : MemEntry} (h : memCmp a b = .eq) :
    a.userKey = b.userKey ∧ a.tag = b.tag := by
  rcases memCmp_cases a b with ⟨_, h2⟩ | ⟨hu, h2⟩ | ⟨_, h2⟩
  · rw [h2] at h
    exact absurd h (by decide)
  · rw [h2] at h
    refine ⟨hu, ?_⟩
    by_cases h3 : b.tag < a.tag
    · rw [if_pos h3] at h
      exact absurd h (by decide)
    · rw [if_neg h3] at h
      by_cases h4 : a.tag < b.tag
      · rw [if_pos h4] at h
        exact absurd h (by decide)
      · omega
  · rw [h2] at h
    exact absurd h (by decide)

theorem memCmp_tag_lt {a b : MemEntry} (hu : a.userKey = b.userKey)
    (ht : b.tag < a.tag) : memCmp a b = .lt := by
  have h2 := memCmp_of_eq (a := a) (b := b)
    (by rw [hu, sliceCompare_self])
  rw [h2, if_pos ht]

theorem memCmp_lt_tag {a b : MemEntry} (hu : a.userKey = b.userKey)
    (h : memCmp a b = .lt) : b.tag < a.tag := by
  have h2 := memCmp_of_eq (a := a) (b := b)
    (by rw [hu, sliceCompare_self])
  rw [h2] at h
  by_cases h3 : b.tag < a.tag
  · exact h3
  · rw [if_neg h3] at h
    by_cases h4 : a.tag < b.tag
    · rw [if_pos h4] at h
      exact absurd h (by decide)
    · rw [if_neg h4] at h
      exact absurd h (by decide)

theorem memCmp_facts : CmpFacts memCmp := by
  refine ⟨?_, ?_, ?_⟩
  · intro a b
    rcases memCmp_cases a b with ⟨hs, h2⟩ | ⟨hu, h2⟩ | ⟨hs, h2⟩
    · have h3 : memCmp b a = .gt :=
        memCmp_of_gt ((sliceCompare_symm _ _).1 hs)
      rw [h2, h3]
      simp
    · have h4 := memCmp_of_eq (a := b) (b := a)
        (by rw [← hu, sliceCompare_self])
      rw [h2, h4]
      by_cases h5 : b.tag < a.tag
      · rw [if_pos h5, if_pos h5, if_neg (by omega : ¬ a.tag < b.tag)]
        simp
      · rw [if_neg h5, if_neg h5]
        by_cases h6 : a.tag < b.tag
        · rw [if_pos h6, if_pos h6]
          simp
        · rw [if_neg h6, if_neg h6]
          simp
    · have h3 : memCmp b a = .lt := by
        apply memCmp_of_lt
        rw [← sliceCompare_symm] at hs
        exact hs
      rw [h2, h3]
      simp
  · intro a b c h1 h2
    rcases memCmp_cases a b with ⟨hsa, ha2⟩ | ⟨hua, ha2⟩ | ⟨_, ha2⟩
    · rcases memCmp_cases b c with ⟨hsb, _⟩ | ⟨hub, _⟩ | ⟨hsb, hb2⟩
      · exact memCmp_of_lt (sliceCompare_trans _ _ _ hsa hsb)
      · exact memCmp_of_lt (by rw [← hub]; exact hsa)
      · rw [hb2] at h2
        exact absurd h2 (by decide)
    · rcases memCmp_cases b c with ⟨hsb, _⟩ | ⟨hub, _⟩ | ⟨hsb, hb2⟩
      · exact memCmp_of_lt (by rw [hua]; exact hsb)
      · have h5 : b.tag < a.tag := memCmp_lt_tag hua h1
        have h6 : c.tag < b.tag := memCmp_lt_tag hub h2
        exact memCmp_tag_lt (by rw [hua, hub]) (by omega)
      · rw [hb2] at h2
        exact absurd h2 (by decide)
    · rw [ha2] at h1
      exact absurd h1 (by decide)
  · intro a b c h
    obtain ⟨hu, ht⟩ := memCmp_eq_user_tag h
    unfold memCmp
    rw [hu, ht]

theorem sorted_dropWhile_not_lt {α : Type} {cmp : α → α → Ordering}
    (hf : CmpFacts cmp) (key : α) :
    ∀ ns : List (SkipL.Node α),
      ns.Pairwise (fun a b => cmp a.key b.key = .lt) →
      ∀ e ∈ ns.dropWhile (fun n => cmp n.key key = .lt),
        ¬ cmp e.key key = .lt := by
  intro ns
  induction ns with
  | nil =>
    intro _ e he
    simp at he
  | cons n ns ih =>
    intro hs e he
    rcases List.pairwise_cons.1 hs with ⟨hn, hs2⟩
    by_cases hlt : cmp n.key key = .lt
    · have hrw : List.dropWhile
          (fun n : SkipL.Node α => decide (cmp n.key key = Ordering.lt))
          (n :: ns) =
          List.dropWhile (fun n => decide (cmp n.key key = Ordering.lt)) ns := by
        rw [List.dropWhile_cons]
        simp [hlt]
      rw [hrw] at he
      exact ih hs2 e he
    · have hrw : List.dropWhile
          (fun n : SkipL.Node α => decide (cmp n.key key = Ordering.lt))
          (n :: ns) = n :: ns := by
        rw [List.dropWhile_cons]
        simp [hlt]
      rw [hrw] at he
      rcases List.mem_cons.1 he with h2 | h2
      · rw [h2]
        exact hlt
      · intro hc
        exact hlt (hf.trans _ _ _ (hn e h2) hc)

theorem memGet_eq_nil {st : SkipL.SkipState MemEntry} {k : Bytes} {s : Nat}
    (h : SkipL.findGreaterOrEqual memCmp st (lookupEntry k s) = []) :
    memGet st k s = .miss := by
  unfold memGet
  rw [h]

theorem memGet_eq_cons {st : SkipL.SkipState MemEntry} {k : Bytes} {s : Nat}
    {n0 : SkipL.Node MemEntry} {rest : List (SkipL.Node MemEntry)}
    (h : SkipL.findGreaterOrEqual memCmp st (lookupEntry k s) = n0 :: rest) :
    memGet st k s =
      (if sliceCompare n0.key.userKey k = .eq then
        if n0.key.tag % 256 = kTypeValue then .found n0.key.value
        else if n0.key.tag % 256 = kTypeDeletion then .notFoundTombstone
        else .miss
      else .miss) := by
  unfold memGet
  rw [h]

theorem lt_probe_iff (k : Bytes) (S : Nat) (e : MemEntry)
    (he : e.vtype ≤ 1) :
    memCmp e (lookupEntry k S) = .lt ↔
      (sliceCompare e.userKey k = .lt ∨ (e.userKey = k ∧ S < e.seq)) := by
  have htag : (lookupEntry k S).tag = S * 256 + 1 := rfl
  have huk : (lookupEntry k S).userKey = k := rfl
  rcases h : sliceCompare e.userKey k with _ | _ | _
  · constructor
    · intro _
      exact Or.inl rfl
    · intro _
      exact memCmp_of_lt (by rw [huk]; exact h)
  · have hu : e.userKey = k := (sliceCompare_eq_iff _ _).1 h
    have h2 := memCmp_of_eq (a := e) (b := lookupEntry k S)
      (by rw [huk, hu, sliceCompare_self])
    rw [h2, htag]
    constructor
    · intro h3
      by_cases h4 : S * 256 + 1 < e.tag
      · refine Or.inr ⟨hu, ?_⟩
        unfold MemEntry.tag at h4
        omega
      · rw [if_neg h4] at h3
        split at h3 <;> simp_all
    · rintro (h3 | ⟨_, h3⟩)
      · exact absurd h3 (by decide)
      · have h5 : S * 256 + 1 < e.tag := by
          unfold MemEntry.tag
          omega
        rw [if_pos h5]
  · constructor
    · intro h3
      have h4 := memCmp_of_gt (a := e) (b := lookupEntry k S)
        (by rw [huk]; exact h)
      rw [h4] at h3
      exact absurd h3 (by decide)
    · rintro (h3 | ⟨h3, _⟩)
      · exact absurd h3 (by decide)
      · rw [h3, sliceCompare_self] at h
        exact absurd h (by decide)

/-- Claim C1: for every sequence of `MemTable::Add` calls (puts and
deletions with no duplicate `(user_key, sequence, type)` triple) and every
lookup key built from user key `k` and snapshot sequence `S`,
`MemTable::Get` reports a miss when no entry for `k` with sequence `≤ S`
exists; and when such entries exist, the entry `e'` with the highest tag
among them has the highest sequence `≤ S`, and `Get` returns its value
when its type is `kTypeValue` and a NotFound tombstone when its type is
`kTypeDeletion`. -/
theorem memGet_spec (ops : List (MemEntry × Nat)) (k : Bytes) (S : Nat)
    (htype : ∀ op ∈ ops, op.1.vtype = kTypeValue ∨ op.1.vtype = kTypeDeletion)
    (hdist : ops.Pairwise (fun a b =>
      ¬(a.1.userKey = b.1.userKey ∧ a.1.seq = b.1.seq ∧
        a.1.vtype = b.1.vtype)))
    (hh : ∀ op ∈ ops, 1 ≤ op.2) :
    ((∀ e ∈ ops.map Prod.fst, ¬(e.userKey = k ∧ e.seq ≤ S)) →
      memGet (memInsertAll ops) k S = .miss) ∧
    (∀ e', e' ∈ ops.map Prod.fst → e'.userKey = k → e'.seq ≤ S →
      (∀ e ∈ ops.map Prod.fst, e.userKey = k → e.seq ≤ S → e.tag ≤ e'.tag) →
      (∀ e ∈ ops.map Prod.fst, e.userKey = k → e.seq ≤ S → e.seq ≤ e'.seq) ∧
      (e'.vtype = kTypeValue →
        memGet (memInsertAll ops) k S = .found e'.value) ∧
      (e'.vtype = kTypeDeletion →
        memGet (memInsertAll ops) k S = .notFoundTombstone)) := by
  have hvb : ∀ e ∈ ops.map Prod.fst, e.vtype ≤ 1 := by
    intro e he
    obtain ⟨op, hop, hofe⟩ := List.mem_map.1 he
    rcases htype op hop with h | h <;>
      · rw [← hofe]
        simp [h, kTypeValue, kTypeDeletion]
  have hdist2 : ops.Pairwise (fun a b => memCmp a.1 b.1 ≠ .eq) := by
    refine List.Pairwise.imp_of_mem ?_ hdist
    intro a b ha hb hne hceq
    obtain ⟨hu, ht⟩ := memCmp_eq_user_tag hceq
    have hva : a.1.vtype ≤ 1 := hvb a.1 (List.mem_map_of_mem _ ha)
    have hvc : b.1.vtype ≤ 1 := hvb b.1 (List.mem_map_of_mem _ hb)
    unfold MemEntry.tag at ht
    exact hne ⟨hu, by omega, by omega⟩
  obtain ⟨hs, hperm, hhn⟩ :=
    SkipL.foldInsert_spec memCmp_facts ops (SkipL.SkipState.empty MemEntry)
      (by simp [SkipL.SkipState.empty]) (by simp [SkipL.SkipState.empty])
      hdist2 (by simp [SkipL.SkipState.empty]) hh
  have hfold : memInsertAll ops =
      ops.foldl (fun s kh => SkipL.insert memCmp s kh.1 kh.2)
        (SkipL.SkipState.empty MemEntry) := rfl
  rw [← hfold] at hs hperm hhn
  have hnil : (SkipL.SkipState.empty MemEntry).nodes = [] := rfl
  rw [hnil, List.append_nil] at hperm
  set st := memInsertAll ops with hst
  have hkeys : (st.nodes.map SkipL.Node.key).Perm (ops.map Prod.fst) := by
    have h2 := hperm.map SkipL.Node.key
    rw [List.map_map] at h2
    exact h2
  have hseek : SkipL.findGreaterOrEqual memCmp st (lookupEntry k S) =
      st.nodes.dropWhile (fun n => memCmp n.key (lookupEntry k S) = .lt) :=
    SkipL.findGreaterOrEqual_eq memCmp_facts st (lookupEntry k S) hs hhn
  have hmemv : ∀ n ∈ st.nodes, n.key.vtype ≤ 1 := by
    intro n hn
    exact hvb _ (hkeys.subset (List.mem_map_of_mem _ hn))
  have hdwn : ∀ e ∈ st.nodes.dropWhile
      (fun n => memCmp n.key (lookupEntry k S) = .lt),
      ¬ memCmp e.key (lookupEntry k S) = .lt :=
    sorted_dropWhile_not_lt memCmp_facts (lookupEntry k S) st.nodes hs
  constructor
  · intro hnone
    rcases hdw : st.nodes.dropWhile
        (fun n => memCmp n.key (lookupEntry k S) = .lt) with _ | ⟨n0, rest⟩
    · exact memGet_eq_nil (by rw [hseek, hdw])
    · rw [memGet_eq_cons (by rw [hseek, hdw])]
      have hn0dw : n0 ∈ st.nodes.dropWhile
          (fun n => memCmp n.key (lookupEntry k S) = .lt) := by
        rw [hdw]
        exact List.mem_cons_self _ _
      have hn0mem : n0 ∈ st.nodes := (List.dropWhile_sublist _).subset hn0dw
      have hv0 : n0.key.vtype ≤ 1 := hmemv n0 hn0mem
      have hn0nlt := hdwn n0 hn0dw
      have hneq : ¬ sliceCompare n0.key.userKey k = .eq := by
        intro heq
        have hu2 : n0.key.userKey = k := (sliceCompare_eq_iff _ _).1 heq
        have hc := hnone n0.key (hkeys.subset (List.mem_map_of_mem _ hn0mem))
        have hslt : S < n0.key.seq := by
          by_contra h4
          exact hc ⟨hu2, by omega⟩
        exact hn0nlt ((lt_probe_iff k S n0.key hv0).2 (Or.inr ⟨hu2, hslt⟩))
      rw [if_neg hneq]
  · intro e' he' hu' hs' hmax
    obtain ⟨n', hn', hkn'⟩ : ∃ n ∈ st.nodes, n.key = e' := by
      obtain ⟨n, hn, hkey⟩ := List.mem_map.1 (hkeys.mem_iff.2 he')
      exact ⟨n, hn, hkey⟩
    have hv' : e'.vtype ≤ 1 := hvb e' he'
    have hpu : (lookupEntry k S).userKey = k := rfl
    have hn'nlt : ¬ memCmp n'.key (lookupEntry k S) = .lt := by
      rw [hkn', lt_probe_iff k S e' hv']
      rintro (h2 | ⟨_, h2⟩)
      · rw [hu', sliceCompare_self] at h2
        exact absurd h2 (by decide)
      · omega
    have hn'dw : n' ∈ st.nodes.dropWhile
        (fun n => memCmp n.key (lookupEntry k S) = .lt) := by
      have hsplit := List.takeWhile_append_dropWhile
        (p := fun n : SkipL.Node MemEntry =>
          decide (memCmp n.key (lookupEntry k S) = Ordering.lt))
        (l := st.nodes)
      rcases List.mem_append.1 (by rw [hsplit]; exact hn') with h2 | h2
      · have h3 := List.mem_takeWhile_imp h2
        exact absurd (of_decide_eq_true h3) hn'nlt
      · exact h2
    rcases hdw : st.nodes.dropWhile
        (fun n => memCmp n.key (lookupEntry k S) = .lt) with _ | ⟨n0, rest⟩
    · rw [hdw] at hn'dw
      exact absurd hn'dw (List.not_mem_nil _)
    · have hn0dw : n0 ∈ st.nodes.dropWhile
          (fun n => memCmp n.key (lookupEntry k S) = .lt) := by
        rw [hdw]
        exact List.mem_cons_self _ _
      have hn0mem : n0 ∈ st.nodes := (List.dropWhile_sublist _).subset hn0dw
      have hv0 : n0.key.vtype ≤ 1 := hmemv n0 hn0mem
      have hn0nlt := hdwn n0 hn0dw
      have hn0keymem : n0.key ∈ ops.map Prod.fst :=
        hkeys.subset (List.mem_map_of_mem _ hn0mem)
      have hsub : List.Sublist
          (List.dropWhile (fun n : SkipL.Node MemEntry =>
            decide (memCmp n.key (lookupEntry k S) = Ordering.lt)) st.nodes)
          st.nodes := List.dropWhile_sublist _
      have hdwsorted := List.Pairwise.sublist hsub hs
      rw [hdw] at hdwsorted hn'dw
      rcases List.pairwise_cons.1 hdwsorted with ⟨hn0rest, _⟩
      have hn0user : n0.key.userKey = k := by
        rcases memCmp_cases n0.key (lookupEntry k S) with
          ⟨hsl, hc⟩ | ⟨huser, _⟩ | ⟨hsg, _⟩
        · exact absurd hc hn0nlt
        · exact huser
        · rw [hpu] at hsg
          rcases List.mem_cons.1 hn'dw with h2 | h2
          · exfalso
            rw [← h2, hkn', hu', sliceCompare_self] at hsg
            exact absurd hsg (by decide)
          · exfalso
            have hlt := hn0rest n' h2
            have hgt : memCmp n0.key n'.key = .gt :=
              memCmp_of_gt (by rw [hkn', hu']; exact hsg)
            rw [hlt] at hgt
            exact absurd hgt (by decide)
      have hn0seq : n0.key.seq ≤ S := by
        by_contra h2
        exact hn0nlt ((lt_probe_iff k S n0.key hv0).2
          (Or.inr ⟨hn0user, by omega⟩))
      have h1 : n0.key.tag ≤ e'.tag := hmax n0.key hn0keymem hn0user hn0seq
      have h2 : e'.tag ≤ n0.key.tag := by
        rcases List.mem_cons.1 hn'dw with h3 | h3
        · rw [← h3, hkn']
        · have hlt := hn0rest n' h3
          have huu : n0.key.userKey = n'.key.userKey := by
            rw [hn0user, hkn', hu']
          have h4 := memCmp_lt_tag huu hlt
          rw [hkn'] at h4
          omega
      have hueq : n0.key.userKey = e'.userKey := by
        rw [hn0user, hu']
      have hseqeq : n0.key.seq = e'.seq ∧ n0.key.vtype = e'.vtype := by
        unfold MemEntry.tag at h1 h2
        omega
      have hn0eq : n0.key = e' := by
        obtain ⟨op1, hop1, hop1e⟩ := List.mem_map.1 hn0keymem
        obtain ⟨op2, hop2, hop2e⟩ := List.mem_map.1 he'
        by_cases h4 : op1 = op2
        · rw [← hop1e, h4, hop2e]
        · exfalso
          have hsym : Symmetric (fun a b : MemEntry × Nat =>
              ¬(a.1.userKey = b.1.userKey ∧ a.1.seq = b.1.seq ∧
                a.1.vtype = b.1.vtype)) := by
            intro x y hxy h
            exact hxy ⟨h.1.symm, h.2.1.symm, h.2.2.symm⟩
          have h5 := List.Pairwise.forall hsym hdist hop1 hop2 h4
          apply h5
          rw [hop1e, hop2e]
          exact ⟨hueq, hseqeq.1, hseqeq.2⟩
      refine ⟨?_, ?_, ?_⟩
      · intro e he heu hes
        have h6 := hmax e he heu hes
        have hve : e.vtype ≤ 1 := hvb e he
        unfold MemEntry.tag at h6
        omega
      · intro hvt
        rw [memGet_eq_cons (by rw [hseek, hdw]), hn0eq, hu',
          sliceCompare_self, if_pos rfl]
        unfold MemEntry.tag
        rw [hvt]
        simp only [kTypeValue, kTypeDeletion]
        rw [if_pos (by omega)]
      · intro hvt
        rw [memGet_eq_cons (by rw [hseek, hdw]), hn0eq, hu',
          sliceCompare_self, if_pos rfl]
        unfold MemEntry.tag
        rw [hvt]
        simp only [kTypeValue, kTypeDeletion]
        rw [if_neg (by omega), if_pos (by omega)]

theorem memGet_spec_witness :
    memGet (memInsertAll
        [(⟨[97], 5, 1, [120]⟩, 1), (⟨[97], 4, 0, []⟩, 1)]) [97] 6 =
      GetResult.found [120] :=
  ((memGet_spec [(⟨[97], 5, 1, [120]⟩, 1), (⟨[97], 4, 0, []⟩, 1)] [97] 6
      (by decide) (by decide) (by decide)).2
    ⟨[97], 5, 1, [120]⟩ (by decide) (by decide) (by decide)
      (by decide)).2.1 rfl

end Mem

/-! ## LRU cache shard (`util/cache.cc`, class `LRUCache`) -/

namespace Cache

/-- An `LRUHandle` (the heap allocation is modelled by an id-indexed entry
list; `next`/`prev`/`next_hash` pointers become the shard's explicit
lists). `value` and the deleter are opaque to the cache, so the value is a
number and deleter calls are recorded in the shard state. -/
structure LRUHandleM where
  key : Bytes
  value : Nat
  charge : Nat
  refs : Nat
  in_cache : Bool
deriving DecidableEq

/-- One `LRUCache` shard. `lru`/`inUse` hold entry ids (`lru` oldest
first: `lru_.next` is the oldest, appends go before the dummy head, i.e.
at the tail). `table` is the `HandleTable` as a key-to-id association
list in bucket-chain order. `entries` maps live (not yet freed) ids to
handles in allocation order; `deleted` records each id whose deleter ran,
in order; `nextId` models the allocator. -/
structure CacheState where
  capacity : Nat
  usage : Nat
  lru : List Nat
  inUse : List Nat
  table : List (Bytes × Nat)
  entries : List (Nat × LRUHandleM)
  deleted : List Nat
  nextId : Nat
deriving DecidableEq

/-- Dereference an id (reading a live `LRUHandle*`). -/
def getEntry (s : CacheState) (i : Nat) : Option LRUHandleM :=
  s.entries.lookup i

/-- Overwrite the handle an id points to. -/
def setEntry (s : CacheState) (i : Nat) (e : LRUHandleM) : CacheState :=
  { s with entries := s.entries.map (fun p => if p.1 = i then (i, e) else p) }

/-- `free(e)`: the allocation disappears. -/
def eraseEntry (s : CacheState) (i : Nat) : CacheState :=
  { s with entries := s.entries.filter (fun p => p.1 ≠ i) }

/-- `LRU_Remove(e)`: unlink from whichever circular list holds the
entry. -/
def lruRemove (s : CacheState) (i : Nat) : CacheState :=
  { s with lru := s.lru.filter (fun j => j ≠ i),
           inUse := s.inUse.filter (fun j => j ≠ i) }

/-- `LRU_Append(&lru_, e)`: insert just before the dummy head, i.e. as
newest. -/
def lruAppendLru (s : CacheState) (i : Nat) : CacheState :=
  { s with lru := s.lru ++ [i] }

/-- `LRU_Append(&in_use_, e)`. -/
def lruAppendInUse (s : CacheState) (i : Nat) : CacheState :=
  { s with inUse := s.inUse ++ [i] }

/-- `LRUCache::Unref(e)`: drop one reference; at zero call the deleter
and free; at one with `in_cache` move to the LRU list's newest slot. -/
def unref (s : CacheState) (i : Nat) : CacheState :=
  match getEntry s i with
  | none => s
  | some e =>
    if e.refs - 1 = 0 then
      { (eraseEntry s i) with deleted := s.deleted ++ [i] }
    else if e.in_cache ∧ e.refs - 1 = 1 then
      lruAppendLru (lruRemove (setEntry s i { e with refs := e.refs - 1 }) i) i
    else
      setEntry s i { e with refs := e.refs - 1 }

/-- `LRUCache::Ref(e)`: a client takes a reference; an entry resting on
the LRU list moves to the in-use list. -/
def ref (s : CacheState) (i : Nat) : CacheState :=
  match getEntry s i with
  | none => s
  | some e =>
    let s1 := if e.refs = 1 ∧ e.in_cache then lruAppendInUse (lruRemove s i) i
              else s
    setEntry s1 i { e with refs := e.refs + 1 }

/-- `HandleTable::Insert(h)`: `FindPointer` walks the chain to the first
binding of the key and splices the new handle in its place (returning the
old handle), or appends at the chain's end. -/
def tableInsert (t : List (Bytes × Nat)) (key : Bytes) (id : Nat) :
    List (Bytes × Nat) × Option Nat :=
  match t with
  | [] => ([(key, id)], none)
  | (k, v) :: rest =>
    if k = key then ((key, id) :: rest, some v)
    else
      let r := tableInsert rest key id
      ((k, v) :: r.1, r.2)

/-- `HandleTable::Remove(key, hash)`: unlink and return the first binding
of the key, if any. -/
def tableRemove (t : List (Bytes × Nat)) (key : Bytes) :
    List (Bytes × Nat) × Option Nat :=
  match t with
  | [] => ([], none)
  | (k, v) :: rest =>
    if k = key then (rest, some v)
    else
      let r := tableRemove rest key
      ((k, v) :: r.1, r.2)

/-- `LRUCache::FinishErase(e)`: for a handle just removed from the hash
table, unlink it from its list, clear `in_cache`, give back its charge
and drop the cache's reference. -/
def finishErase (s : CacheState) (old : Option Nat) : CacheState :=
  match old with
  | none => s
  | some i =>
    match getEntry s i with
    | none => s
    | some e =>
      let s1 := lruRemove s i
      let s2 := setEntry s1 i { e with in_cache := false }
      let s3 := { s2 with usage := s2.usage - e.charge }
      unref s3 i

/-- The `while (usage_ > capacity_ && lru_.next != &lru_)` eviction loop
of `LRUCache::Insert`: remove the oldest LRU entry from the hash table
and finish erasing it. The fuel is the LRU length at entry, which bounds
the iterations (each one unlinks the LRU head). -/
def evictLoop : Nat → CacheState → CacheState
  | 0, s => s
  | fuel+1, s =>
    match s.lru with
    | [] => s
    | oldId :: _ =>
      if s.capacity < s.usage then
        match getEntry s oldId with
        | none => s
        | some e =>
          let tr := tableRemove s.table e.key
          evictLoop fuel (finishErase { s with table := tr.1 } tr.2)
      else s

/-- `LRUCache::Insert(key, hash, value, charge, deleter)`: allocate the
handle with one client reference; when the capacity is positive take the
cache reference, put it on the in-use list, charge the usage and install
it in the table (finish-erasing a displaced binding of the same key);
then run the eviction loop. Returns the new state and the handle. -/
def insert (s : CacheState) (key : Bytes) (value charge : Nat) :
    CacheState × Nat :=
  let i := s.nextId
  let e0 : LRUHandleM := ⟨key, value, charge, 1, false⟩
  let s0 : CacheState :=
    { s with nextId := i + 1, entries := s.entries ++ [(i, e0)] }
  let s2 :=
    if 0 < s.capacity then
      let s1a := setEntry s0 i ⟨key, value, charge, 2, true⟩
      let s1 := { s1a with inUse := s1a.inUse ++ [i],
                           usage := s1a.usage + charge }
      let ti := tableInsert s1.table key i
      finishErase { s1 with table := ti.1 } ti.2
    else s0
  (evictLoop s2.lru.length s2, i)

/-- `LRUCache::Lookup(key, hash)`: find the binding in the table and take
a reference. -/
def cacheLookup (s : CacheState) (key : Bytes) : CacheState × Option Nat :=
  match s.table.lookup key with
  | none => (s, none)
  | some i => (ref s i, some i)

/-- `LRUCache::Release(handle)`. -/
def release (s : CacheState) (i : Nat) : CacheState := unref s i

/-- A fresh shard after `SetCapacity(C)` (constructor: empty lists, zero
usage). -/
def initState (C : Nat) : CacheState := ⟨C, 0, [], [], [], [], [], 0⟩

/-- The C3 workload as claimed: only `Insert` calls, fixed charge (values
are irrelevant to the cache, fixed at 0); the returned handles are kept
(never released). -/
def insertAllNoRelease (charge : Nat) (keys : List Bytes)
    (s : CacheState) : CacheState :=
  keys.foldl (fun s k => (insert s k 0 charge).1) s

/-- The repaired workload: each `Insert`'s returned handle is released
immediately. -/
def insertReleaseAll (charge : Nat) (keys : List Bytes)
    (s : CacheState) : CacheState :=
  keys.foldl (fun s k =>
    let p := insert s k 0 charge
    release p.1 p.2) s

theorem lookup_append_self {α β : Type} [DecidableEq α]
    (l : List (α × β)) (i : α) (e : β) (h : i ∉ l.map Prod.fst) :
    (l ++ [(i, e)]).lookup i = some e := by
  induction l with
  | nil => simp [List.lookup]
  | cons p t ih =>
    obtain ⟨k, v⟩ := p
    rw [List.map_cons] at h
    have h1 : ¬ i = k := by
      intro he
      exact h (by rw [he]; exact List.mem_cons_self _ _)
    have h2 : i ∉ t.map Prod.fst := fun hm => h (List.mem_cons_of_mem _ hm)
    rw [List.cons_append]
    simp only [List.lookup]
    rw [show (i == k) = false from beq_eq_false_iff_ne.2 h1]
    exact ih h2

theorem lookup_filter_ne_self {β : Type}
    (l : List (Nat × β)) (i : Nat) :
    (l.filter (fun p => p.1 ≠ i)).lookup i = none := by
  induction l with
  | nil => rfl
  | cons p t ih =>
    obtain ⟨k, v⟩ := p
    rw [List.filter_cons]
    by_cases hk : k = i
    · rw [if_neg (by simp [hk])]
      exact ih
    · rw [if_pos (by simp [hk])]
      simp only [List.lookup]
      rw [show (i == k) = false from beq_eq_false_iff_ne.2 (fun he => hk he.symm)]
      exact ih

theorem lookup_none_of_not_mem {α β : Type} [DecidableEq α]
    (l : List (α × β)) (i : α) (h : i ∉ l.map Prod.fst) :
    l.lookup i = none := by
  induction l with
  | nil => rfl
  | cons p t ih =>
    obtain ⟨k, v⟩ := p
    rw [List.map_cons] at h
    have h1 : ¬ i = k := by
      intro he
      exact h (by rw [he]; exact List.mem_cons_self _ _)
    have h2 : i ∉ t.map Prod.fst := fun hm => h (List.mem_cons_of_mem _ hm)
    simp only [List.lookup]
    rw [show (i == k) = false from beq_eq_false_iff_ne.2 h1]
    exact ih h2

theorem lookup_of_mem_nodup {α β : Type} [DecidableEq α]
    {l : List (α × β)} {i : α} {b : β}
    (hn : (l.map Prod.fst).Nodup) (h : (i, b) ∈ l) :
    l.lookup i = some b := by
  induction l with
  | nil => exact absurd h (List.not_mem_nil _)
  | cons p t ih =>
    obtain ⟨k, v⟩ := p
    rw [List.map_cons] at hn
    rcases List.pairwise_cons.1 hn with ⟨hk, hn2⟩
    rcases List.mem_cons.1 h with h2 | h2
    · obtain ⟨he1, he2⟩ := Prod.mk.injEq .. ▸ h2
      simp only [List.lookup]
      rw [show (i == k) = true from beq_iff_eq.2 (by rw [he1])]
      rw [he2]
    · have h1 : ¬ i = k := by
        intro he
        have hm : i ∈ t.map Prod.fst := List.mem_map_of_mem Prod.fst h2
        exact hk i hm he.symm
      simp only [List.lookup]
      rw [show (i == k) = false from beq_eq_false_iff_ne.2 h1]
      exact ih hn2 h2

theorem evictLoop_no_evict (fuel : Nat) (s : CacheState)
    (h : ¬ s.capacity < s.usage) : evictLoop fuel s = s := by
  cases fuel with
  | zero => rfl
  | succ n =>
    unfold evictLoop
    split
    · rfl
    · rw [if_neg h]

/-- Claim C3 counterexample: a shard of capacity 1 that receives two
`Insert` calls of charge 1 (handles kept, as the claimed insert-only
workload allows) ends with usage 2 > capacity: the pinned in-use entries
are on neither eviction list, so the eviction loop never frees them. -/
theorem lruCache_insertOnly_counterexample :
    0 < (initState 1).capacity ∧
    ¬ (insertAllNoRelease 1 [[0], [1]] (initState 1)).usage ≤
        (initState 1).capacity := by decide

/-- Claim C10: an `Insert` into a shard with capacity 0 caches nothing:
the handle is created with one reference and `in_cache` false, the hash
table, both lists, the usage and the deleter record stay unchanged, a
`Lookup` of the key misses without touching the state, and releasing the
returned handle invokes the deleter (exactly then) and frees the entry. -/
theorem capacityZero_insert_spec (s : CacheState) (key : Bytes)
    (v charge : Nat)
    (hcap : s.capacity = 0) (husage : s.usage = 0)
    (htab : s.table.lookup key = none)
    (hent : s.nextId ∉ s.entries.map Prod.fst) :
    (insert s key v charge).2 = s.nextId ∧
    getEntry (insert s key v charge).1 s.nextId =
      some ⟨key, v, charge, 1, false⟩ ∧
    (insert s key v charge).1.usage = s.usage ∧
    (insert s key v charge).1.lru = s.lru ∧
    (insert s key v charge).1.inUse = s.inUse ∧
    (insert s key v charge).1.table = s.table ∧
    (insert s key v charge).1.deleted = s.deleted ∧
    (cacheLookup (insert s key v charge).1 key).2 = none ∧
    (cacheLookup (insert s key v charge).1 key).1 =
      (insert s key v charge).1 ∧
    (release (insert s key v charge).1 s.nextId).deleted =
      s.deleted ++ [s.nextId] ∧
    getEntry (release (insert s key v charge).1 s.nextId) s.nextId =
      none := by
  have hc : ¬ 0 < s.capacity := by omega
  have hins : insert s key v charge =
      (⟨s.capacity, s.usage, s.lru, s.inUse, s.table,
        s.entries ++ [(s.nextId, ⟨key, v, charge, 1, false⟩)],
        s.deleted, s.nextId + 1⟩,
       s.nextId) := by
    simp only [insert]
    rw [if_neg hc, evictLoop_no_evict _ _ (by simp [hcap, husage])]
  rw [hins]
  have hget : getEntry
      (⟨s.capacity, s.usage, s.lru, s.inUse, s.table,
        s.entries ++ [(s.nextId, ⟨key, v, charge, 1, false⟩)],
        s.deleted, s.nextId + 1⟩ : CacheState) s.nextId =
      some ⟨key, v, charge, 1, false⟩ :=
    lookup_append_self s.entries s.nextId _ hent
  refine ⟨rfl, hget, rfl, rfl, rfl, rfl, rfl, ?_, ?_, ?_, ?_⟩
  · simp [cacheLookup, htab]
  · simp [cacheLookup, htab]
  · simp only [release, unref, hget, if_true]
  · simp only [release, unref, hget, if_true]
    exact lookup_filter_ne_self _ s.nextId

/-- Witness for C10 at a concrete capacity-0 shard. -/
theorem capacityZero_insert_spec_witness :
    (insert (initState 0) [5] 7 3).2 = 0 ∧
    getEntry (insert (initState 0) [5] 7 3).1 0 =
      some ⟨[5], 7, 3, 1, false⟩ ∧
    (insert (initState 0) [5] 7 3).1.usage = (initState 0).usage ∧
    (insert (initState 0) [5] 7 3).1.lru = (initState 0).lru ∧
    (insert (initState 0) [5] 7 3).1.inUse = (initState 0).inUse ∧
    (insert (initState 0) [5] 7 3).1.table = (initState 0).table ∧
    (insert (initState 0) [5] 7 3).1.deleted = (initState 0).deleted ∧
    (cacheLookup (insert (initState 0) [5] 7 3).1 [5]).2 = none ∧
    (cacheLookup (insert (initState 0) [5] 7 3).1 [5]).1 =
      (insert (initState 0) [5] 7 3).1 ∧
    (release (insert (initState 0) [5] 7 3).1 0).deleted =
      (initState 0).deleted ++ [0] ∧
    getEntry (release (insert (initState 0) [5] 7 3).1 0) 0 = none :=
  capacityZero_insert_spec (initState 0) [5] 7 3
    (by decide) (by decide) (by decide) (by decide)

theorem tableInsert_fresh (key : Bytes) (id : Nat) :
    ∀ t : List (Bytes × Nat), key ∉ t.map Prod.fst →
    tableInsert t key id = (t ++ [(key, id)], none) := by
  intro t
  induction t with
  | nil =>
    intro _
    rfl
  | cons p rest ih =>
    intro h
    obtain ⟨k, v⟩ := p
    rw [List.map_cons] at h
    have h1 : ¬ k = key := by
      intro he
      exact h (by rw [← he]; exact List.mem_cons_self _ _)
    have h2 : key ∉ rest.map Prod.fst := fun hm => h (List.mem_cons_of_mem _ hm)
    simp only [tableInsert, if_neg h1, ih h2]
    simp

theorem tableInsert_found (key : Bytes) (id old : Nat)
    (t₂ : List (Bytes × Nat)) :
    ∀ t₁ : List (Bytes × Nat), key ∉ t₁.map Prod.fst →
    tableInsert (t₁ ++ (key, old) :: t₂) key id =
      (t₁ ++ (key, id) :: t₂, some old) := by
  intro t₁
  induction t₁ with
  | nil =>
    intro _
    simp [tableInsert]
  | cons p rest ih =>
    intro h
    obtain ⟨k, v⟩ := p
    rw [List.map_cons] at h
    have h1 : ¬ k = key := by
      intro he
      exact h (by rw [← he]; exact List.mem_cons_self _ _)
    have h2 : key ∉ rest.map Prod.fst := fun hm => h (List.mem_cons_of_mem _ hm)
    rw [List.cons_append]
    simp only [tableInsert, if_neg h1, ih h2]
    simp

theorem tableRemove_found (key : Bytes) (v : Nat) (t₂ : List (Bytes × Nat)) :
    ∀ t₁ : List (Bytes × Nat), key ∉ t₁.map Prod.fst →
    tableRemove (t₁ ++ (key, v) :: t₂) key = (t₁ ++ t₂, some v) := by
  intro t₁
  induction t₁ with
  | nil =>
    intro _
    simp [tableRemove]
  | cons p rest ih =>
    intro h
    obtain ⟨k, w⟩ := p
    rw [List.map_cons] at h
    have h1 : ¬ k = key := by
      intro he
      exact h (by rw [← he]; exact List.mem_cons_self _ _)
    have h2 : key ∉ rest.map Prod.fst := fun hm => h (List.mem_cons_of_mem _ hm)
    rw [List.cons_append]
    simp only [tableRemove, if_neg h1, ih h2]
    simp

theorem filter_ne_of_not_mem (l : List Nat) (i : Nat) (h : i ∉ l) :
    l.filter (fun j => j ≠ i) = l := by
  induction l with
  | nil => rfl
  | cons a t ih =>
    have h1 : a ≠ i := fun he => h (by rw [← he]; exact List.mem_cons_self _ _)
    have h2 : i ∉ t := fun hm => h (List.mem_cons_of_mem _ hm)
    rw [List.filter_cons, if_pos (by simp [h1]), ih h2]

theorem filter_pair_ne_of_not_mem {β : Type} (l : List (Nat × β)) (i : Nat)
    (h : i ∉ l.map Prod.fst) :
    l.filter (fun p => p.1 ≠ i) = l := by
  induction l with
  | nil => rfl
  | cons a t ih =>
    rw [List.map_cons] at h
    have h1 : a.1 ≠ i := fun he => h (by rw [← he]; exact List.mem_cons_self _ _)
    have h2 : i ∉ t.map Prod.fst := fun hm => h (List.mem_cons_of_mem _ hm)
    rw [List.filter_cons, if_pos (by simp [h1]), ih h2]

theorem map_replace_of_not_mem {β : Type} (l : List (Nat × β)) (i : Nat)
    (e : β) (h : i ∉ l.map Prod.fst) :
    l.map (fun p => if p.1 = i then (i, e) else p) = l := by
  induction l with
  | nil => rfl
  | cons a t ih =>
    rw [List.map_cons] at h
    have h1 : a.1 ≠ i := fun he => h (by rw [← he]; exact List.mem_cons_self _ _)
    have h2 : i ∉ t.map Prod.fst := fun hm => h (List.mem_cons_of_mem _ hm)
    rw [List.map_cons, if_neg h1, ih h2]

theorem lookup_map_replace {β : Type} (i : Nat) (e : β) :
    ∀ l : List (Nat × β), (l.lookup i).isSome = true →
    (l.map (fun p => if p.1 = i then (i, e) else p)).lookup i = some e := by
  intro l
  induction l with
  | nil =>
    intro h
    exact absurd h (by simp [List.lookup])
  | cons p t ih =>
    intro h
    obtain ⟨k, v⟩ := p
    by_cases hk : k = i
    · rw [List.map_cons, if_pos hk]
      simp only [List.lookup]
      rw [show (i == i) = true from beq_iff_eq.2 rfl]
    · rw [List.map_cons, if_neg hk]
      have hne : (i == k) = false := beq_eq_false_iff_ne.2 (fun he => hk he.symm)
      simp only [List.lookup] at h ⊢
      rw [hne] at h ⊢
      exact ih h

theorem finishErase_eq (s : CacheState) (i : Nat) (e : LRUHandleM)
    (he : getEntry s i = some e) (hrefs : e.refs = 1) :
    finishErase s (some i) =
      ⟨s.capacity, s.usage - e.charge,
       s.lru.filter (fun j => j ≠ i),
       s.inUse.filter (fun j => j ≠ i),
       s.table,
       ((s.entries.map (fun p =>
         if p.1 = i then (i, { e with in_cache := false }) else p)).filter
           (fun p => p.1 ≠ i)),
       s.deleted ++ [i],
       s.nextId⟩ := by
  have hsome : ((s.entries).lookup i).isSome = true := by
    unfold getEntry at he
    rw [he]
    rfl
  have hget2 := lookup_map_replace i ({ e with in_cache := false }) s.entries hsome
  simp only [finishErase, he, lruRemove, setEntry]
  simp only [unref, getEntry, hget2]
  rw [if_pos (by simp [hrefs])]
  rfl

/-- The handle of a cached-and-unreferenced entry in the fixed-charge
workload: one (cache) reference, on the LRU list. -/
def EntryOf (charge : Nat) (k : Bytes) : LRUHandleM := ⟨k, 0, charge, 1, true⟩

/-- The handle of the entry just inserted, before its client handle is
released: two references, on the in-use list. -/
def PinnedOf (charge : Nat) (k : Bytes) : LRUHandleM := ⟨k, 0, charge, 2, true⟩

/-- The entry-list element corresponding to a cached binding. -/
def mkEnt (charge : Nat) (p : Bytes × Nat) : Nat × LRUHandleM :=
  (p.2, EntryOf charge p.1)

theorem evictLoop_step (fuel : Nat) (s : CacheState) (oldId : Nat)
    (rest : List Nat) (e : LRUHandleM) (t2 : List (Bytes × Nat))
    (r : Option Nat)
    (hl : s.lru = oldId :: rest) (hgt : s.capacity < s.usage)
    (he : getEntry s oldId = some e)
    (htr : tableRemove s.table e.key = (t2, r)) :
    evictLoop (fuel + 1) s =
      evictLoop fuel (finishErase { s with table := t2 } r) := by
  conv_lhs => rw [evictLoop]
  simp only [hl]
  rw [if_pos hgt]
  simp only [he, htr]

theorem evictLoop_spec (C charge n : Nat) (key : Bytes) :
    ∀ (L : List (Bytes × Nat)) (fuel : Nat) (s : CacheState),
    fuel = L.length →
    s.capacity = C →
    s.nextId = n + 1 →
    s.inUse = [n] →
    s.lru = L.map Prod.snd →
    s.usage = charge * L.length + charge →
    s.table.Perm (L ++ [(key, n)]) →
    ((L ++ [(key, n)]).map Prod.fst).Nodup →
    ((L ++ [(key, n)]).map Prod.snd).Nodup →
    (∀ p ∈ L, p.2 < n) →
    s.entries.Perm (L.map (mkEnt charge) ++ [(n, PinnedOf charge key)]) →
    s.deleted.Nodup →
    (∀ d ∈ s.deleted, d < n) →
    (∀ id, id < n → (id ∈ s.deleted ↔ id ∉ L.map Prod.snd)) →
    ∃ L',
      (evictLoop fuel s).capacity = C ∧
      (evictLoop fuel s).nextId = n + 1 ∧
      (evictLoop fuel s).inUse = [n] ∧
      (evictLoop fuel s).lru = L'.map Prod.snd ∧
      (evictLoop fuel s).usage = charge * L'.length + charge ∧
      (evictLoop fuel s).table.Perm (L' ++ [(key, n)]) ∧
      ((L' ++ [(key, n)]).map Prod.fst).Nodup ∧
      ((L' ++ [(key, n)]).map Prod.snd).Nodup ∧
      (∀ p ∈ L', p.2 < n) ∧
      (evictLoop fuel s).entries.Perm
        (L'.map (mkEnt charge) ++ [(n, PinnedOf charge key)]) ∧
      (evictLoop fuel s).deleted.Nodup ∧
      (∀ d ∈ (evictLoop fuel s).deleted, d < n) ∧
      (∀ id, id < n →
        (id ∈ (evictLoop fuel s).deleted ↔ id ∉ L'.map Prod.snd)) ∧
      (charge * L'.length + charge ≤ C ∨ L' = []) := by
  intro L
  induction L with
  | nil =>
    intro fuel s hfuel hcap hnext hiu hlru husage htab hfst hsnd hlt hent hdn
      hdb hdp
    rw [show fuel = 0 from hfuel]
    exact ⟨[], hcap, hnext, hiu, hlru, husage, htab, hfst, hsnd, hlt, hent,
      hdn, hdb, hdp, Or.inr rfl⟩
  | cons p L2 ih =>
    intro fuel s hfuel hcap hnext hiu hlru husage htab hfst hsnd hlt hent hdn
      hdb hdp
    obtain ⟨k0, i0⟩ := p
    rw [List.length_cons] at hfuel
    rw [hfuel]
    by_cases hgt : s.capacity < s.usage
    · -- evict the LRU head (k0, i0)
      have hi0n : i0 < n := hlt (k0, i0) (List.mem_cons_self _ _)
      have hlru2 : s.lru = i0 :: L2.map Prod.snd := by rw [hlru]; rfl
      have hsndr : (i0 :: (L2.map Prod.snd ++ [n])).Nodup := by
        have h0 := hsnd
        rw [List.cons_append, List.map_cons, List.map_append] at h0
        exact h0
      rcases List.nodup_cons.1 hsndr with ⟨hi0nm, hsndtail⟩
      have hni0 : i0 ∉ L2.map Prod.snd :=
        fun hm => hi0nm (List.mem_append_left _ hm)
      have hi0ne : i0 ≠ n := by
        intro he
        exact hi0nm (by rw [he]; exact List.mem_append_right _ (by simp))
      -- the entry of the head
      have hMfst : ((((k0, i0) :: L2).map (mkEnt charge)) ++
          [(n, PinnedOf charge key)]).map Prod.fst =
          i0 :: (L2.map Prod.snd ++ [n]) := by
        simp [mkEnt]
      have hekeys : (s.entries.map Prod.fst).Nodup := by
        have h2 := (hent.map Prod.fst).nodup_iff
        rw [hMfst] at h2
        exact h2.2 hsndr
      have hmem0 : (i0, EntryOf charge k0) ∈ s.entries :=
        hent.mem_iff.2 (List.mem_append_left _ (by
          exact List.mem_cons_self _ _))
      have hlook0 : getEntry s i0 = some (EntryOf charge k0) :=
        lookup_of_mem_nodup hekeys hmem0
      -- the table binding of the head
      have hmemT : (k0, i0) ∈ s.table :=
        htab.mem_iff.2 (List.mem_append_left _ (List.mem_cons_self _ _))
      obtain ⟨t₁, t₂, hT⟩ := List.append_of_mem hmemT
      have hTkeys : (s.table.map Prod.fst).Nodup :=
        (htab.map Prod.fst).nodup_iff.2 hfst
      have hk0t₁ : k0 ∉ t₁.map Prod.fst := by
        rw [hT, List.map_append, List.map_cons] at hTkeys
        intro hmem
        rcases List.nodup_append.1 hTkeys with ⟨_, _, hdisj⟩
        exact hdisj hmem (List.mem_cons_self _ _)
      have htr : tableRemove s.table (EntryOf charge k0).key =
          (t₁ ++ t₂, some i0) := by
        show tableRemove s.table k0 = _
        rw [hT]
        exact tableRemove_found k0 i0 t₂ t₁ hk0t₁
      have hlook0b : getEntry { s with table := t₁ ++ t₂ } i0 =
          some (EntryOf charge k0) := hlook0
      rw [evictLoop_step L2.length s i0 (L2.map Prod.snd)
        (EntryOf charge k0) (t₁ ++ t₂) (some i0) hlru2 hgt hlook0 htr]
      rw [finishErase_eq { s with table := t₁ ++ t₂ } i0
        (EntryOf charge k0) hlook0b rfl]
      -- hypotheses of the tail invocation
      have husage2 : s.usage = charge * L2.length + charge + charge := by
        rw [List.length_cons, Nat.mul_succ] at husage
        omega
      refine ih L2.length _ rfl hcap hnext ?_ ?_ ?_ ?_ ?_ ?_ ?_ ?_ ?_ ?_ ?_
      · show s.inUse.filter (fun j => j ≠ i0) = [n]
        rw [hiu]
        refine filter_ne_of_not_mem [n] i0 ?_
        intro hm
        rcases List.mem_singleton.1 hm with h
        exact hi0ne h
      · show s.lru.filter (fun j => j ≠ i0) = L2.map Prod.snd
        rw [hlru2, List.filter_cons, if_neg (by simp)]
        exact filter_ne_of_not_mem _ _ hni0
      · show s.usage - (EntryOf charge k0).charge =
          charge * L2.length + charge
        show s.usage - charge = charge * L2.length + charge
        omega
      · show (t₁ ++ t₂).Perm (L2 ++ [(key, n)])
        have h1 : s.table.Perm ((k0, i0) :: (t₁ ++ t₂)) := by
          rw [hT]
          exact List.perm_middle
        have h2 := h1.symm.trans htab
        rw [List.cons_append] at h2
        exact h2.cons_inv
      · have h0 := hfst
        rw [List.cons_append, List.map_cons] at h0
        exact (List.nodup_cons.1 h0).2
      · have h0 := hsnd
        rw [List.cons_append, List.map_cons] at h0
        exact (List.nodup_cons.1 h0).2
      · intro q hq
        exact hlt q (List.mem_cons_of_mem _ hq)
      · -- entries
        have hM2i0 : i0 ∉ (L2.map (mkEnt charge) ++
            [(n, PinnedOf charge key)]).map Prod.fst := by
          have h0 : (L2.map (mkEnt charge) ++
              [(n, PinnedOf charge key)]).map Prod.fst =
              L2.map Prod.snd ++ [n] := by simp [mkEnt]
          rw [h0]
          exact hi0nm
        have h1 : s.entries.Perm ((i0, EntryOf charge k0) ::
            (L2.map (mkEnt charge) ++ [(n, PinnedOf charge key)])) := by
          refine hent.trans ?_
          exact List.Perm.refl _
        have h2 := h1.map (fun q =>
          if q.1 = i0 then
            (i0, { EntryOf charge k0 with in_cache := false }) else q)
        have h3 : ((i0, EntryOf charge k0) ::
            (L2.map (mkEnt charge) ++ [(n, PinnedOf charge key)])).map
            (fun q => if q.1 = i0 then
              (i0, { EntryOf charge k0 with in_cache := false }) else q) =
            (i0, { EntryOf charge k0 with in_cache := false }) ::
              (L2.map (mkEnt charge) ++ [(n, PinnedOf charge key)]) := by
          rw [List.map_cons,
            map_replace_of_not_mem _ i0 _ hM2i0]
          simp
        rw [h3] at h2
        have h4 := h2.filter (fun q => q.1 ≠ i0)
        have h5 : ((i0, { EntryOf charge k0 with in_cache := false }) ::
            (L2.map (mkEnt charge) ++ [(n, PinnedOf charge key)])).filter
              (fun q => q.1 ≠ i0) =
            L2.map (mkEnt charge) ++ [(n, PinnedOf charge key)] := by
          rw [List.filter_cons, if_neg (by simp)]
          exact filter_pair_ne_of_not_mem _ i0 hM2i0
        rw [h5] at h4
        exact h4
      · -- deleted nodup
        show (s.deleted ++ [i0]).Nodup
        refine List.nodup_append.2 ⟨hdn, List.nodup_singleton _, ?_⟩
        intro a ha hb
        rcases List.mem_singleton.1 hb with h
        rw [h] at ha
        have h6 := (hdp i0 hi0n).1 ha
        exact h6 (by rw [hlru2] at hlru; exact (by
          show i0 ∈ ((k0, i0) :: L2).map Prod.snd
          exact List.mem_cons_self _ _))
      · -- deleted bounds
        show ∀ d ∈ s.deleted ++ [i0], d < n
        intro d hd
        rcases List.mem_append.1 hd with h6 | h6
        · exact hdb d h6
        · rcases List.mem_singleton.1 h6 with h
          rw [h]
          exact hi0n
      · -- partition
        show ∀ id, id < n →
          (id ∈ s.deleted ++ [i0] ↔ id ∉ L2.map Prod.snd)
        intro id hid
        rw [List.mem_append, List.mem_singleton]
        by_cases hii : id = i0
        · rw [hii]
          constructor
          · intro _
            exact hni0
          · intro _
            exact Or.inr rfl
        · have h7 := hdp id hid
          have h8 : (id ∈ ((k0, i0) :: L2).map Prod.snd) ↔
              id ∈ L2.map Prod.snd := by
            show (id ∈ i0 :: L2.map Prod.snd) ↔ _
            rw [List.mem_cons]
            constructor
            · intro h9
              rcases h9 with h9 | h9
              · exact absurd h9 hii
              · exact h9
            · intro h9
              exact Or.inr h9
          rw [h8] at h7
          constructor
          · intro h9
            rcases h9 with h9 | h9
            · exact h7.1 h9
            · exact absurd h9 hii
          · intro h9
            exact Or.inl (h7.2 h9)
    · -- loop stops: usage within capacity
      rw [evictLoop_no_evict _ _ hgt]
      refine ⟨(k0, i0) :: L2, hcap, hnext, hiu, hlru, husage, htab, hfst,
        hsnd, hlt, hent, hdn, hdb, hdp, Or.inl ?_⟩
      rw [← husage, ← hcap]
      omega

/-- Invariant of a shard after `n` complete insert-then-release rounds of
fixed charge: no client references are held, the cached bindings `L`
(oldest first) determine the LRU list, table, entries and usage, usage is
within capacity, and every allocated id is cached or deleted exactly
once. -/
def INV (C charge n : Nat) (s : CacheState) : Prop :=
  s.capacity = C ∧ s.nextId = n ∧ s.inUse = [] ∧
  ∃ L : List (Bytes × Nat),
    s.lru = L.map Prod.snd ∧
    s.usage = charge * L.length ∧
    s.usage ≤ C ∧
    s.table.Perm L ∧
    (L.map Prod.fst).Nodup ∧
    (L.map Prod.snd).Nodup ∧
    (∀ p ∈ L, p.2 < n) ∧
    s.entries.Perm (L.map (mkEnt charge)) ∧
    s.deleted.Nodup ∧
    (∀ d ∈ s.deleted, d < n) ∧
    (∀ id, id < n → (id ∈ s.deleted ↔ id ∉ L.map Prod.snd))

theorem initState_inv (C charge : Nat) : INV C charge 0 (initState C) := by
  refine ⟨rfl, rfl, rfl, [], rfl, rfl, Nat.zero_le C, List.Perm.refl _,
    List.nodup_nil, List.nodup_nil, ?_, List.Perm.refl _, List.nodup_nil,
    ?_, ?_⟩
  · intro p hp
    exact absurd hp (List.not_mem_nil p)
  · intro d hd
    exact absurd hd (List.not_mem_nil d)
  · intro id h
    exact absurd h (Nat.not_lt_zero id)

theorem insert_eq (s : CacheState) (key : Bytes) (v charge : Nat)
    (hcpos : 0 < s.capacity)
    (hnotE : s.nextId ∉ s.entries.map Prod.fst)
    (t2 : List (Bytes × Nat)) (r : Option Nat)
    (hti : tableInsert s.table key s.nextId = (t2, r)) :
    insert s key v charge =
      (evictLoop
        (finishErase
          ⟨s.capacity, s.usage + charge, s.lru, s.inUse ++ [s.nextId], t2,
           s.entries ++ [(s.nextId, ⟨key, v, charge, 2, true⟩)],
           s.deleted, s.nextId + 1⟩ r).lru.length
        (finishErase
          ⟨s.capacity, s.usage + charge, s.lru, s.inUse ++ [s.nextId], t2,
           s.entries ++ [(s.nextId, ⟨key, v, charge, 2, true⟩)],
           s.deleted, s.nextId + 1⟩ r),
       s.nextId) := by
  have hmap : (s.entries ++
      [(s.nextId, (⟨key, v, charge, 1, false⟩ : LRUHandleM))]).map
      (fun p => if p.1 = s.nextId then
        (s.nextId, (⟨key, v, charge, 2, true⟩ : LRUHandleM)) else p) =
      s.entries ++ [(s.nextId, ⟨key, v, charge, 2, true⟩)] := by
    rw [List.map_append, map_replace_of_not_mem _ _ _ hnotE]
    simp
  simp only [insert, if_pos hcpos, setEntry]
  rw [hmap, hti]

theorem release_after (charge nid : Nat) (key : Bytes) (C : Nat)
    (L2 : List (Bytes × Nat)) (r : CacheState)
    (hle : charge ≤ C)
    (hc1 : r.capacity = C)
    (hc2 : r.nextId = nid + 1)
    (hc3 : r.inUse = [nid])
    (hc4 : r.lru = L2.map Prod.snd)
    (hc5 : r.usage = charge * L2.length + charge)
    (hc6 : r.table.Perm (L2 ++ [(key, nid)]))
    (hc7 : ((L2 ++ [(key, nid)]).map Prod.fst).Nodup)
    (hc8 : ((L2 ++ [(key, nid)]).map Prod.snd).Nodup)
    (hc9 : ∀ p ∈ L2, p.2 < nid)
    (hc10 : r.entries.Perm
      (L2.map (mkEnt charge) ++ [(nid, PinnedOf charge key)]))
    (hc11 : r.deleted.Nodup)
    (hc12 : ∀ d ∈ r.deleted, d < nid)
    (hc13 : ∀ id, id < nid → (id ∈ r.deleted ↔ id ∉ L2.map Prod.snd))
    (hc14 : charge * L2.length + charge ≤ C ∨ L2 = []) :
    INV C charge (nid + 1) (release r nid) := by
  have hsndr : (L2.map Prod.snd ++ [nid]).Nodup := by
    have h0 := hc8
    rw [List.map_append] at h0
    exact h0
  have hnidL : nid ∉ L2.map Prod.snd := by
    intro hm
    rcases List.nodup_append.1 hsndr with ⟨_, _, hdisj⟩
    exact hdisj hm (by simp)
  have hekeys : (r.entries.map Prod.fst).Nodup := by
    have h2 := (hc10.map Prod.fst).nodup_iff
    have h3 : ((L2.map (mkEnt charge) ++
        [(nid, PinnedOf charge key)]).map Prod.fst) =
        L2.map Prod.snd ++ [nid] := by simp [mkEnt]
    rw [h3] at h2
    exact h2.2 hsndr
  have hmemP : (nid, PinnedOf charge key) ∈ r.entries :=
    hc10.mem_iff.2 (List.mem_append_right _ (by simp))
  have hlookP : getEntry r nid = some (PinnedOf charge key) :=
    lookup_of_mem_nodup hekeys hmemP
  have hrel : release r nid =
      lruAppendLru (lruRemove (setEntry r nid
        { PinnedOf charge key with
            refs := (PinnedOf charge key).refs - 1 }) nid) nid := by
    simp only [release, unref, hlookP]
    rw [if_neg (by simp [PinnedOf]), if_pos ⟨rfl, rfl⟩]
  rw [hrel]
  refine ⟨hc1, hc2, ?_, L2 ++ [(key, nid)], ?_, ?_, ?_, hc6, hc7, hc8,
    ?_, ?_, hc11, ?_, ?_⟩
  · show r.inUse.filter (fun j => j ≠ nid) = []
    rw [hc3]
    simp
  · show r.lru.filter (fun j => j ≠ nid) ++ [nid] = _
    rw [hc4, filter_ne_of_not_mem _ _ hnidL, List.map_append]
    rfl
  · show r.usage = charge * (L2 ++ [(key, nid)]).length
    rw [hc5]
    simp [List.length_append, Nat.mul_succ]
  · show r.usage ≤ C
    rcases hc14 with h | h
    · rw [hc5]
      exact h
    · rw [hc5, h]
      simpa using hle
  · intro p hp
    rcases List.mem_append.1 hp with h | h
    · have := hc9 p h
      omega
    · rcases List.mem_singleton.1 h with h2
      rw [h2]
      exact Nat.lt_succ_self nid
  · -- entries
    show (r.entries.map (fun p => if p.1 = nid then
        (nid, { PinnedOf charge key with
          refs := (PinnedOf charge key).refs - 1 }) else p)).Perm _
    have h1 := hc10.map (fun p => if p.1 = nid then
      (nid, { PinnedOf charge key with
        refs := (PinnedOf charge key).refs - 1 }) else p)
    have hnid2 : nid ∉ (L2.map (mkEnt charge)).map Prod.fst := by
      have h3 : (L2.map (mkEnt charge)).map Prod.fst = L2.map Prod.snd := by
        simp [mkEnt]
      rw [h3]
      exact hnidL
    have h2 : (L2.map (mkEnt charge) ++
        [(nid, PinnedOf charge key)]).map (fun p => if p.1 = nid then
          (nid, { PinnedOf charge key with
            refs := (PinnedOf charge key).refs - 1 }) else p) =
        L2.map (mkEnt charge) ++ [(nid, { PinnedOf charge key with
          refs := (PinnedOf charge key).refs - 1 })] := by
      rw [List.map_append, map_replace_of_not_mem _ _ _ hnid2]
      simp
    rw [h2] at h1
    rw [List.map_append]
    exact h1
  · intro d hd
    have := hc12 d hd
    omega
  · intro id hid
    by_cases hidn : id = nid
    · rw [hidn]
      constructor
      · intro h
        exact absurd (hc12 nid h) (Nat.lt_irrefl nid)
      · intro h
        exfalso
        apply h
        rw [List.map_append]
        exact List.mem_append_right _ (by simp)
    · have hlt2 : id < nid := by omega
      have h7 := hc13 id hlt2
      rw [List.map_append]
      constructor
      · intro h8
        intro h9
        rcases List.mem_append.1 h9 with h9 | h9
        · exact (h7.1 h8) h9
        · rcases List.mem_singleton.1 h9 with h10
          exact hidn (by simpa using h10)
      · intro h8
        exact h7.2 (fun h9 => h8 (List.mem_append_left _ h9))

theorem finishErase_none (s : CacheState) : finishErase s none = s := rfl

theorem insert_snd (s : CacheState) (key : Bytes) (v charge : Nat) :
    (insert s key v charge).2 = s.nextId := rfl

theorem insert_fst_eq (s : CacheState) (key : Bytes) (v charge : Nat)
    (hcpos : 0 < s.capacity)
    (hnotE : s.nextId ∉ s.entries.map Prod.fst)
    (t2 : List (Bytes × Nat)) (r : Option Nat)
    (hti : tableInsert s.table key s.nextId = (t2, r)) :
    (insert s key v charge).1 =
      evictLoop
        (finishErase
          ⟨s.capacity, s.usage + charge, s.lru, s.inUse ++ [s.nextId], t2,
           s.entries ++ [(s.nextId, ⟨key, v, charge, 2, true⟩)],
           s.deleted, s.nextId + 1⟩ r).lru.length
        (finishErase
          ⟨s.capacity, s.usage + charge, s.lru, s.inUse ++ [s.nextId], t2,
           s.entries ++ [(s.nextId, ⟨key, v, charge, 2, true⟩)],
           s.deleted, s.nextId + 1⟩ r) := by
  rw [insert_eq s key v charge hcpos hnotE t2 r hti]

theorem evict_release (C charge nid : Nat) (key : Bytes)
    (hle : charge ≤ C) (S : CacheState) (L2 : List (Bytes × Nat))
    (h1 : S.capacity = C) (h2 : S.nextId = nid + 1) (h3 : S.inUse = [nid])
    (h4 : S.lru = L2.map Prod.snd)
    (h5 : S.usage = charge * L2.length + charge)
    (h6 : S.table.Perm (L2 ++ [(key, nid)]))
    (h7 : ((L2 ++ [(key, nid)]).map Prod.fst).Nodup)
    (h8 : ((L2 ++ [(key, nid)]).map Prod.snd).Nodup)
    (h9 : ∀ p ∈ L2, p.2 < nid)
    (h10 : S.entries.Perm
      (L2.map (mkEnt charge) ++ [(nid, PinnedOf charge key)]))
    (h11 : S.deleted.Nodup) (h12 : ∀ d ∈ S.deleted, d < nid)
    (h13 : ∀ id, id < nid → (id ∈ S.deleted ↔ id ∉ L2.map Prod.snd)) :
    INV C charge (nid + 1) (release (evictLoop S.lru.length S) nid) := by
  obtain ⟨L3, hc1, hc2, hc3, hc4, hc5, hc6, hc7, hc8, hc9, hc10, hc11,
    hc12, hc13, hc14⟩ :=
    evictLoop_spec C charge nid key L2 S.lru.length S
      (by rw [h4, List.length_map]) h1 h2 h3 h4 h5 h6 h7 h8 h9 h10 h11
      h12 h13
  exact release_after charge nid key C L3 _ hle hc1 hc2 hc3 hc4 hc5 hc6
    hc7 hc8 hc9 hc10 hc11 hc12 hc13 hc14

theorem round_spec (C charge : Nat) (key : Bytes) (hC : 0 < C)
    (hle : charge ≤ C) (n : Nat) (s : CacheState)
    (hinv : INV C charge n s) :
    INV C charge (n + 1)
      (release (insert s key 0 charge).1 (insert s key 0 charge).2) := by
  obtain ⟨hcap, hnext, hiu, L, hlru, husage, husC, htab, hfst, hsnd, hlt,
    hent, hdn, hdb, hdp⟩ := hinv
  subst hcap
  subst hnext
  have hids_lt : ∀ i ∈ L.map Prod.snd, i < s.nextId := by
    intro i hi
    obtain ⟨q, hq, hq2⟩ := List.mem_map.1 hi
    rw [← hq2]
    exact hlt q hq
  have hentfst : (s.entries.map Prod.fst).Nodup ∧
      ∀ i ∈ s.entries.map Prod.fst, i < s.nextId := by
    have h2 := hent.map Prod.fst
    have h3 : (L.map (mkEnt charge)).map Prod.fst = L.map Prod.snd := by
      simp [mkEnt]
    rw [h3] at h2
    exact ⟨h2.nodup_iff.2 hsnd, fun i hi => hids_lt i (h2.mem_iff.1 hi)⟩
  have hnotE : s.nextId ∉ s.entries.map Prod.fst := by
    intro hm
    have := hentfst.2 _ hm
    omega
  have hnidnotL : s.nextId ∉ L.map Prod.snd := by
    intro hm
    have := hids_lt _ hm
    omega
  rw [insert_snd]
  by_cases hdup : key ∈ L.map Prod.fst
  · -- duplicate key: the old binding is displaced and finish-erased
    obtain ⟨q, hqL, hqk⟩ := List.mem_map.1 hdup
    obtain ⟨kk, old⟩ := q
    have hkk : key = kk := hqk.symm
    subst hkk
    have holdlt : old < s.nextId := hlt (key, old) hqL
    obtain ⟨La, Lb, hLdec⟩ := List.append_of_mem hqL
    have hmemT : (key, old) ∈ s.table := htab.mem_iff.2 hqL
    obtain ⟨t₁, t₂, hT⟩ := List.append_of_mem hmemT
    have hTkeys : (s.table.map Prod.fst).Nodup :=
      (htab.map Prod.fst).nodup_iff.2 hfst
    have hk0t₁ : key ∉ t₁.map Prod.fst := by
      rw [hT, List.map_append, List.map_cons] at hTkeys
      intro hmem
      rcases List.nodup_append.1 hTkeys with ⟨_, _, hdisj⟩
      exact hdisj hmem (List.mem_cons_self _ _)
    have hti : tableInsert s.table key s.nextId =
        (t₁ ++ (key, s.nextId) :: t₂, some old) := by
      rw [hT]
      exact tableInsert_found key s.nextId old t₂ t₁ hk0t₁
    rw [insert_fst_eq s key 0 charge hC hnotE _ _ hti]
    -- decomposed key/id lists
    have hLfst : L.map Prod.fst =
        La.map Prod.fst ++ key :: Lb.map Prod.fst := by
      rw [hLdec]
      simp
    have hLsnd : L.map Prod.snd =
        La.map Prod.snd ++ old :: Lb.map Prod.snd := by
      rw [hLdec]
      simp
    have hfstd := hfst
    rw [hLfst] at hfstd
    rcases List.nodup_append.1 hfstd with ⟨hAf, hkBf, hdisjf⟩
    rcases List.nodup_cons.1 hkBf with ⟨hkeyBf, hBf⟩
    have hkeyAf : key ∉ La.map Prod.fst :=
      fun hm => hdisjf hm (List.mem_cons_self _ _)
    have hsndd := hsnd
    rw [hLsnd] at hsndd
    rcases List.nodup_append.1 hsndd with ⟨hAs, hoBs, hdisjs⟩
    rcases List.nodup_cons.1 hoBs with ⟨holdBs, hBs⟩
    have holdAs : old ∉ La.map Prod.snd :=
      fun hm => hdisjs hm (List.mem_cons_self _ _)
    have holdL2 : old ∉ (La ++ Lb).map Prod.snd := by
      rw [List.map_append]
      intro hm
      rcases List.mem_append.1 hm with h | h
      · exact holdAs h
      · exact holdBs h
    -- the displaced entry
    have hekeys2 : ((s.entries ++
        [(s.nextId, (⟨key, 0, charge, 2, true⟩ : LRUHandleM))]).map
        Prod.fst).Nodup := by
      rw [List.map_append]
      refine List.nodup_append.2 ⟨hentfst.1, List.nodup_singleton _, ?_⟩
      intro a ha hb
      rcases List.mem_singleton.1 hb with h
      rw [h] at ha
      exact hnotE ha
    have hmemold : (old, EntryOf charge key) ∈
        s.entries ++ [(s.nextId, (⟨key, 0, charge, 2, true⟩ :
          LRUHandleM))] := by
      refine List.mem_append_left _ ?_
      refine hent.mem_iff.2 ?_
      exact List.mem_map_of_mem (mkEnt charge) hqL
    have hlookold : getEntry
        (⟨s.capacity, s.usage + charge, s.lru, s.inUse ++ [s.nextId],
          t₁ ++ (key, s.nextId) :: t₂,
          s.entries ++ [(s.nextId, ⟨key, 0, charge, 2, true⟩)],
          s.deleted, s.nextId + 1⟩ : CacheState) old =
        some (EntryOf charge key) :=
      lookup_of_mem_nodup hekeys2 hmemold
    rw [finishErase_eq _ old (EntryOf charge key) hlookold rfl]
    refine evict_release s.capacity charge s.nextId key hle _ (La ++ Lb)
      rfl rfl ?_ ?_ ?_ ?_ ?_ ?_ ?_ ?_ ?_ ?_ ?_
    · show ((s.inUse ++ [s.nextId]).filter (fun j => j ≠ old)) = [s.nextId]
      rw [hiu]
      refine filter_ne_of_not_mem _ _ ?_
      intro hm
      rcases List.mem_singleton.1 hm with h
      omega
    · show (s.lru.filter (fun j => j ≠ old)) = (La ++ Lb).map Prod.snd
      rw [hlru, hLsnd, List.filter_append, List.filter_cons,
        if_neg (by simp), filter_ne_of_not_mem _ _ holdAs,
        filter_ne_of_not_mem _ _ holdBs, List.map_append]
    · show s.usage + charge - (EntryOf charge key).charge =
        charge * (La ++ Lb).length + charge
      show s.usage + charge - charge = charge * (La ++ Lb).length + charge
      rw [hLdec, List.length_append, List.length_cons] at husage
      have hmul : charge * (La.length + (Lb.length + 1)) =
          charge * (La.length + Lb.length) + charge := by ring
      rw [hmul] at husage
      rw [List.length_append]
      omega
    · show (t₁ ++ (key, s.nextId) :: t₂).Perm
        ((La ++ Lb) ++ [(key, s.nextId)])
      have p1 : s.table.Perm ((key, old) :: (t₁ ++ t₂)) := by
        rw [hT]
        exact List.perm_middle
      have p2 : L.Perm ((key, old) :: (La ++ Lb)) := by
        rw [hLdec]
        exact List.perm_middle
      have p3 : (t₁ ++ t₂).Perm (La ++ Lb) :=
        (p1.symm.trans (htab.trans p2)).cons_inv
      refine List.perm_middle.trans ?_
      refine (p3.cons (key, s.nextId)).trans ?_
      exact (List.perm_append_singleton _ _).symm
    · rw [List.map_append, List.map_append]
      refine List.nodup_append.2 ⟨?_, List.nodup_singleton _, ?_⟩
      · rw [← List.map_append]
        rw [List.map_append]
        refine List.nodup_append.2 ⟨hAf, hBf, ?_⟩
        intro a ha hb
        exact hdisjf ha (List.mem_cons_of_mem _ hb)
      · intro a ha hb
        rcases List.mem_singleton.1 hb with h
        rw [h] at ha
        have ha2 : key ∈ La.map Prod.fst ++ Lb.map Prod.fst := ha
        rcases List.mem_append.1 ha2 with h2 | h2
        · exact hkeyAf h2
        · exact hkeyBf h2
    · rw [List.map_append, List.map_append]
      refine List.nodup_append.2 ⟨?_, List.nodup_singleton _, ?_⟩
      · rw [← List.map_append]
        rw [List.map_append]
        refine List.nodup_append.2 ⟨hAs, hBs, ?_⟩
        intro a ha hb
        exact hdisjs ha (List.mem_cons_of_mem _ hb)
      · intro a ha hb
        rcases List.mem_singleton.1 hb with h
        rw [h] at ha
        have ha2 : s.nextId ∈ La.map Prod.snd ++ Lb.map Prod.snd := ha
        have h3 : s.nextId ∈ L.map Prod.snd := by
          rw [hLsnd]
          rcases List.mem_append.1 ha2 with h2 | h2
          · exact List.mem_append_left _ h2
          · exact List.mem_append_right _ (List.mem_cons_of_mem _ h2)
        exact hnidnotL h3
    · intro p hp
      have hp2 : p ∈ L := by
        rw [hLdec]
        rcases List.mem_append.1 hp with h | h
        · exact List.mem_append_left _ h
        · exact List.mem_append_right _ (List.mem_cons_of_mem _ h)
      exact hlt p hp2
    · -- entries
      have hLm : L.map (mkEnt charge) =
          La.map (mkEnt charge) ++ (old, EntryOf charge key) ::
            Lb.map (mkEnt charge) := by
        rw [hLdec]
        simp [mkEnt]
      have hcomp : (Prod.fst ∘ mkEnt charge) =
          (Prod.snd : Bytes × Nat → Nat) := by
        funext q
        rfl
      have htail : ((La ++ Lb).map (mkEnt charge) ++
          [(s.nextId, PinnedOf charge key)]).map Prod.fst =
          (La ++ Lb).map Prod.snd ++ [s.nextId] := by
        simp only [List.map_append, List.map_map, hcomp]
        rfl
      have holdtail : old ∉ ((La ++ Lb).map (mkEnt charge) ++
          [(s.nextId, PinnedOf charge key)]).map Prod.fst := by
        rw [htail]
        intro hm
        rcases List.mem_append.1 hm with h | h
        · exact holdL2 h
        · rcases List.mem_singleton.1 h with h2
          omega
      have hEnt2 : (s.entries ++
          [(s.nextId, (⟨key, 0, charge, 2, true⟩ : LRUHandleM))]).Perm
          ((old, EntryOf charge key) ::
            ((La ++ Lb).map (mkEnt charge) ++
              [(s.nextId, PinnedOf charge key)])) := by
        refine (hent.append_right _).trans ?_
        rw [hLm, List.map_append, List.append_assoc, List.cons_append,
          List.append_assoc]
        exact List.perm_middle
      have h1 := hEnt2.map (fun p => if p.1 = old then
        (old, { EntryOf charge key with in_cache := false }) else p)
      have h2 : (((old, EntryOf charge key) ::
          ((La ++ Lb).map (mkEnt charge) ++
            [(s.nextId, PinnedOf charge key)])).map
          (fun p => if p.1 = old then
            (old, { EntryOf charge key with in_cache := false })
            else p)) =
          (old, { EntryOf charge key with in_cache := false }) ::
            ((La ++ Lb).map (mkEnt charge) ++
              [(s.nextId, PinnedOf charge key)]) := by
        rw [List.map_cons, map_replace_of_not_mem _ _ _ holdtail]
        simp
      rw [h2] at h1
      have h4 := h1.filter (fun p => p.1 ≠ old)
      have h5 : (((old, { EntryOf charge key with in_cache := false }) ::
          ((La ++ Lb).map (mkEnt charge) ++
            [(s.nextId, PinnedOf charge key)])).filter
          (fun p => p.1 ≠ old)) =
          (La ++ Lb).map (mkEnt charge) ++
            [(s.nextId, PinnedOf charge key)] := by
        rw [List.filter_cons, if_neg (by simp)]
        exact filter_pair_ne_of_not_mem _ _ holdtail
      rw [h5] at h4
      exact h4
    · -- deleted nodup
      show (s.deleted ++ [old]).Nodup
      refine List.nodup_append.2 ⟨hdn, List.nodup_singleton _, ?_⟩
      intro a ha hb
      rcases List.mem_singleton.1 hb with h
      rw [h] at ha
      refine (hdp old holdlt).1 ha ?_
      rw [hLsnd]
      exact List.mem_append_right _ (List.mem_cons_self _ _)
    · show ∀ d ∈ s.deleted ++ [old], d < s.nextId
      intro d hd
      rcases List.mem_append.1 hd with h | h
      · exact hdb d h
      · rcases List.mem_singleton.1 h with h2
        omega
    · show ∀ id, id < s.nextId →
        (id ∈ s.deleted ++ [old] ↔ id ∉ (La ++ Lb).map Prod.snd)
      intro id hid
      rw [List.mem_append, List.mem_singleton, List.map_append,
        List.mem_append]
      have hmemL : id ∈ L.map Prod.snd ↔
          (id ∈ La.map Prod.snd ∨ id = old ∨ id ∈ Lb.map Prod.snd) := by
        rw [hLsnd, List.mem_append, List.mem_cons]
      have h7 := hdp id hid
      rw [hmemL] at h7
      by_cases hio : id = old
      · rw [hio]
        constructor
        · intro _
          intro hm
          rcases hm with h | h
          · exact holdAs h
          · exact holdBs h
        · intro _
          exact Or.inr rfl
      · constructor
        · intro h8
          rcases h8 with h8 | h8
          · have h9 := h7.1 h8
            intro hm
            rcases hm with h | h
            · exact h9 (Or.inl h)
            · exact h9 (Or.inr (Or.inr h))
          · exact absurd h8 hio
        · intro h8
          refine Or.inl (h7.2 ?_)
          intro h9
          rcases h9 with h9 | h9
          · exact h8 (Or.inl h9)
          · rcases h9 with h9 | h9
            · exact hio h9
            · exact h8 (Or.inr h9)
  · -- fresh key
    have hkeytab : key ∉ s.table.map Prod.fst := by
      intro hm
      exact hdup ((htab.map Prod.fst).mem_iff.1 hm)
    have hti := tableInsert_fresh key s.nextId s.table hkeytab
    rw [insert_fst_eq s key 0 charge hC hnotE _ _ hti, finishErase_none]
    refine evict_release s.capacity charge s.nextId key hle _ L
      rfl rfl ?_ hlru ?_ ?_ ?_ ?_ hlt ?_ hdn hdb hdp
    · show s.inUse ++ [s.nextId] = [s.nextId]
      rw [hiu]
      rfl
    · show s.usage + charge = charge * L.length + charge
      omega
    · show (s.table ++ [(key, s.nextId)]).Perm (L ++ [(key, s.nextId)])
      exact htab.append_right _
    · rw [List.map_append]
      refine List.nodup_append.2 ⟨hfst, List.nodup_singleton _, ?_⟩
      intro a ha hb
      rcases List.mem_singleton.1 hb with h
      rw [h] at ha
      exact hdup ha
    · rw [List.map_append]
      refine List.nodup_append.2 ⟨hsnd, List.nodup_singleton _, ?_⟩
      intro a ha hb
      rcases List.mem_singleton.1 hb with h
      rw [h] at ha
      exact hnidnotL ha
    · show (s.entries ++
        [(s.nextId, (⟨key, 0, charge, 2, true⟩ : LRUHandleM))]).Perm
        (L.map (mkEnt charge) ++ [(s.nextId, PinnedOf charge key)])
      exact hent.append_right _

theorem insertReleaseAll_inv (C charge : Nat) (hC : 0 < C)
    (hle : charge ≤ C) :
    ∀ (keys : List Bytes) (n : Nat) (s : CacheState), INV C charge n s →
    INV C charge (n + keys.length) (insertReleaseAll charge keys s) := by
  intro keys
  induction keys with
  | nil =>
    intro n s h
    simpa [insertReleaseAll] using h
  | cons k ks ih =>
    intro n s h
    have h1 := round_spec C charge k hC hle n s h
    have h2 := ih (n + 1) _ h1
    have h3 : insertReleaseAll charge (k :: ks) s =
        insertReleaseAll charge ks
          (release (insert s k 0 charge).1 (insert s k 0 charge).2) := rfl
    have h4 : n + (k :: ks).length = (n + 1) + ks.length := by
      rw [List.length_cons]
      omega
    rw [h3, h4]
    exact h2

/-- Claim C3 (amended): when every handle returned by `Insert` is
released immediately and the fixed per-entry charge is at most the
capacity `C > 0`, then once the inserts finish the shard's usage is at
most `C`, and every inserted entry is either still installed in the hash
table with its deleter never called, or gone from the table with its
deleter called exactly once. -/
theorem lruCache_insertRelease_spec (C charge : Nat) (keys : List Bytes)
    (hC : 0 < C) (hle : charge ≤ C) :
    (insertReleaseAll charge keys (initState C)).usage ≤ C ∧
    (∀ id, id < keys.length →
      ((id ∈ (insertReleaseAll charge keys (initState C)).table.map
          Prod.snd ∧
        (insertReleaseAll charge keys (initState C)).deleted.count id
          = 0) ∨
       (id ∉ (insertReleaseAll charge keys (initState C)).table.map
          Prod.snd ∧
        (insertReleaseAll charge keys (initState C)).deleted.count id
          = 1))) := by
  have h := insertReleaseAll_inv C charge hC hle keys 0 (initState C)
    (initState_inv C charge)
  rw [Nat.zero_add] at h
  obtain ⟨hcap, hnext, hiu, L, hlru, husage, husC, htab, hfst, hsnd, hlt,
    hent, hdn, hdb, hdp⟩ := h
  refine ⟨husC, ?_⟩
  intro id hid
  have hp := hdp id hid
  have htabids : (id ∈ (insertReleaseAll charge keys
      (initState C)).table.map Prod.snd) ↔ id ∈ L.map Prod.snd :=
    (htab.map Prod.snd).mem_iff
  by_cases hmem : id ∈ L.map Prod.snd
  · left
    refine ⟨htabids.2 hmem, ?_⟩
    have h2 : id ∉ (insertReleaseAll charge keys (initState C)).deleted :=
      fun h3 => (hp.1 h3) hmem
    exact List.count_eq_zero.2 h2
  · right
    refine ⟨fun h2 => hmem (htabids.1 h2), ?_⟩
    exact List.count_eq_one_of_mem hdn (hp.2 hmem)

/-- Witness for the amended C3 at a concrete workload (capacity 1,
charge 1, three inserts including a duplicate key). -/
theorem lruCache_insertRelease_spec_witness :
    (insertReleaseAll 1 [[0], [1], [0]] (initState 1)).usage ≤ 1 ∧
    (∀ id, id < ([[0], [1], [0]] : List Bytes).length →
      ((id ∈ (insertReleaseAll 1 [[0], [1], [0]]
          (initState 1)).table.map Prod.snd ∧
        (insertReleaseAll 1 [[0], [1], [0]]
          (initState 1)).deleted.count id = 0) ∨
       (id ∉ (insertReleaseAll 1 [[0], [1], [0]]
          (initState 1)).table.map Prod.snd ∧
        (insertReleaseAll 1 [[0], [1], [0]]
          (initState 1)).deleted.count id = 1))) :=
  lruCache_insertRelease_spec 1 1 [[0], [1], [0]] (by decide) (by decide)

end Cache

end LevelDB
